import Mathlib

/-!
Verification of `src/mediumvioletred.py` (a desktop utility that builds a
TrueType font from a directory of SVG glyph images via FontForge, and edits an
HTML/PHP document to reference the generated font on user-selected tags).

The development shallowly embeds the two data pipelines of the source:

* the glyph-to-font pipeline: `select_svg_folder` / `generate_font` /
  `generate_fontforge_script` (directory listing, `*.svg` globbing, sorting,
  FontForge script text);
* the markup-augmentation pipeline: `load_html_tags` / `modify_html`
  (permissive HTML parsing modelled by a small tag-tree parser, tag-set
  extraction, style-block injection, backup-then-overwrite persistence over an
  explicit filesystem state with failure injection for `os.makedirs`,
  `shutil.copy2` and the final write).

Strings are compared by Unicode code point, as Python does; all string
operations are written over `List Char` so that every definition evaluates
inside the kernel.
-/

/-! ### Character utilities

`lowerChar` models the per-character case-normalization that Python's
`html.parser` applies to tag names, on the ASCII range (the model's
documents use ASCII tag names).
-/

def lowerChar (c : Char) : Char :=
  if 65 ≤ c.toNat ∧ c.toNat ≤ 90 then Char.ofNat (c.toNat + 32) else c

theorem toNat_ofNat_shift (c : Char) (h1 : 65 ≤ c.toNat) (h2 : c.toNat ≤ 90) :
    (Char.ofNat (c.toNat + 32)).toNat = c.toNat + 32 := by
  set n := c.toNat with hn
  interval_cases n <;> decide

theorem lowerChar_toNat (c : Char) :
    (lowerChar c).toNat =
      if 65 ≤ c.toNat ∧ c.toNat ≤ 90 then c.toNat + 32 else c.toNat := by
  unfold lowerChar
  split
  · next h => exact toNat_ofNat_shift c h.1 h.2
  · rfl

theorem char_toNat_inj {a b : Char} (h : a.toNat = b.toNat) : a = b := by
  apply Char.ext
  exact UInt32.ext h

theorem lowerChar_not_upper (c : Char) :
    ¬ (65 ≤ (lowerChar c).toNat ∧ (lowerChar c).toNat ≤ 90) := by
  rw [lowerChar_toNat]
  split
  · omega
  · omega

theorem lowerChar_idem (c : Char) : lowerChar (lowerChar c) = lowerChar c := by
  unfold lowerChar
  split
  · next h =>
    rw [if_neg]
    intro hc
    rw [toNat_ofNat_shift c h.1 h.2] at hc
    omega
  · rfl

theorem lowerChar_eq_of_not_upper (c : Char)
    (h : ¬ (65 ≤ c.toNat ∧ c.toNat ≤ 90)) : lowerChar c = c := by
  unfold lowerChar
  exact if_neg h

theorem lowerChar_ne_of_ne (c : Char) (d : Char)
    (hdn : ¬ (97 ≤ d.toNat ∧ d.toNat ≤ 122)) (hne : c ≠ d) : lowerChar c ≠ d := by
  intro h
  apply hne
  apply char_toNat_inj
  have := lowerChar_toNat c
  rw [h] at this
  by_cases hu : 65 ≤ c.toNat ∧ c.toNat ≤ 90
  · rw [if_pos hu] at this
    omega
  · rw [if_neg hu] at this
    omega

/-! ### List-of-characters utilities (the string primitives the model uses) -/

/-- `begWith pat l` : does `l` begin with `pat`? -/
def begWith : List Char → List Char → Bool
  | [], _ => true
  | _ :: _, [] => false
  | p :: ps, c :: cs => p = c && begWith ps cs

/-- Does `l` end with `pat`? (models `fnmatch` of the glob tail `.svg`) -/
def endWith (pat l : List Char) : Bool := begWith pat.reverse l.reverse

/-- Does `pat` occur anywhere inside `l`? -/
def hasSub (pat : List Char) : List Char → Bool
  | [] => begWith pat []
  | c :: cs => begWith pat (c :: cs) || hasSub pat cs

/-- Number of (possibly overlapping) occurrences of `pat` inside `l`. -/
def countSub (pat : List Char) : List Char → Nat
  | [] => if begWith pat [] then 1 else 0
  | c :: cs => (if begWith pat (c :: cs) then 1 else 0) + countSub pat cs

/-- Split `l` at the first character satisfying `stop`:
returns the longest `stop`-free front segment and the rest. -/
def takeUntil (stop : Char → Bool) : List Char → List Char × List Char
  | [] => ([], [])
  | c :: cs =>
    if stop c then ([], c :: cs)
    else
      let r := takeUntil stop cs
      (c :: r.1, r.2)

theorem takeUntil_append (stop : Char → Bool) (xs ys : List Char)
    (hx : ∀ c ∈ xs, stop c = false)
    (hy : ys = [] ∨ ∃ d ds, ys = d :: ds ∧ stop d = true) :
    takeUntil stop (xs ++ ys) = (xs, ys) := by
  induction xs with
  | nil =>
    rcases hy with h | ⟨d, ds, rfl, hd⟩
    · simp [h, takeUntil]
    · simp [takeUntil, hd]
  | cons c cs ih =>
    have hc : stop c = false := hx c (by simp)
    simp only [List.cons_append, takeUntil, hc, Bool.false_eq_true, if_false]
    simp [ih (fun x hx' => hx x (by simp [hx']))]

theorem takeUntil_spec (stop : Char → Bool) (l : List Char) :
    takeUntil stop l = (l.takeWhile (fun c => ¬ stop c), l.dropWhile (fun c => ¬ stop c)) := by
  induction l with
  | nil => rfl
  | cons c cs ih =>
    by_cases h : stop c
    · simp [takeUntil, h, List.takeWhile, List.dropWhile]
    · simp [takeUntil, h, List.takeWhile, List.dropWhile, ih]

theorem takeUntil_fst_not_stop (stop : Char → Bool) (l : List Char) :
    ∀ c ∈ (takeUntil stop l).1, stop c = false := by
  induction l with
  | nil => intro c h; simp [takeUntil] at h
  | cons d ds ih =>
    intro c h
    by_cases hd : stop d
    · simp [takeUntil, hd] at h
    · simp only [takeUntil, hd, Bool.false_eq_true, if_false] at h
      simp at h
      rcases h with rfl | h
      · exact Bool.eq_false_iff.mpr hd
      · exact ih c h

theorem takeUntil_append_eq (stop : Char → Bool) (l : List Char) :
    (takeUntil stop l).1 ++ (takeUntil stop l).2 = l := by
  rw [takeUntil_spec]
  exact List.takeWhile_append_dropWhile _ _

/-! ### Lexicographic order on strings by code point (Python's string order) -/

def leChars : List Char → List Char → Bool
  | [], _ => true
  | _ :: _, [] => false
  | a :: as, b :: bs =>
    if a.toNat < b.toNat then true
    else if b.toNat < a.toNat then false
    else leChars as bs

/-- Python's `sorted` comparator for strings: lexicographic by code point. -/
def strLe (a b : String) : Bool := leChars a.data b.data

theorem leChars_total (a b : List Char) : leChars a b = true ∨ leChars b a = true := by
  induction a generalizing b with
  | nil => left; rfl
  | cons x xs ih =>
    cases b with
    | nil => right; rfl
    | cons y ys =>
      rcases Nat.lt_trichotomy x.toNat y.toNat with h | h | h
      · left; simp [leChars, h]
      · rcases ih ys with h' | h'
        · left; simp [leChars, h, h']
        · right; simp [leChars, h.symm, h']
      · right; simp [leChars, h]

theorem leChars_trans (a b c : List Char) (hab : leChars a b = true)
    (hbc : leChars b c = true) : leChars a c = true := by
  induction a generalizing b c with
  | nil => rfl
  | cons x xs ih =>
    cases b with
    | nil => simp [leChars] at hab
    | cons y ys =>
      cases c with
      | nil => simp [leChars] at hbc
      | cons z zs =>
        simp only [leChars] at hab hbc ⊢
        by_cases hxy : x.toNat < y.toNat
        · by_cases hyz : y.toNat < z.toNat
          · simp [show x.toNat < z.toNat by omega]
          · simp only [hyz, if_false] at hbc
            by_cases hzy : z.toNat < y.toNat
            · simp [hzy] at hbc
            · simp [show x.toNat < z.toNat by omega]
        · simp only [hxy, if_false] at hab
          by_cases hyx : y.toNat < x.toNat
          · simp [hyx] at hab
          · simp only [hyx, if_false] at hab
            by_cases hyz : y.toNat < z.toNat
            · simp [show x.toNat < z.toNat by omega]
            · simp only [hyz, if_false] at hbc
              by_cases hzy : z.toNat < y.toNat
              · simp [hzy] at hbc
              · simp only [hzy, if_false] at hbc
                have h1 : ¬ x.toNat < z.toNat := by omega
                have h2 : ¬ z.toNat < x.toNat := by omega
                simp only [h1, h2, if_false]
                exact ih ys zs hab hbc

/-- The relation the model sorts by (Prop form of `strLe`). -/
def strLeR (a b : String) : Prop := strLe a b = true

instance : DecidableRel strLeR := fun a b => instDecidableEqBool (strLe a b) true

instance : IsTotal String strLeR := ⟨fun a b => leChars_total a.data b.data⟩

instance : IsTrans String strLeR := ⟨fun a b c => leChars_trans a.data b.data c.data⟩

/-! ### The markup tree (BeautifulSoup's parse model)

`Node` is the in-memory document tree `BeautifulSoup(content, "html.parser")`
produces: element tags with children, and text (`NavigableString`) leaves.
`render` is `str(soup)`; `parse` is the parser itself, modelled for documents
made of balanced tags and text (the stdlib parser lowercases tag names, which
`lowerChar` captures).
-/

inductive Node where
  | elem (name : String) (children : List Node)
  | text (s : String)

def isTextN : Node → Bool
  | .text _ => true
  | .elem _ _ => false

def headIsText : List Node → Bool
  | .text _ :: _ => true
  | _ => false

mutual

def render : Node → List Char
  | .elem n cs => '<' :: (n.data ++ ('>' :: renderL cs) ++ ('<' :: '/' :: (n.data ++ ['>'])))
  | .text s => s.data

def renderL : List Node → List Char
  | [] => []
  | t :: ts => render t ++ renderL ts

end

/-- `str(soup)` : serialize the whole tree back to document text. -/
def renderDoc (ts : List Node) : String := ⟨renderL ts⟩

mutual

def parseNode : Nat → List Char → Option (Node × List Char)
  | 0, _ => none
  | _ + 1, [] => none
  | _ + 1, '<' :: '/' :: _ => none
  | fuel + 1, '<' :: rest =>
    match takeUntil (fun c => c = '>') rest with
    | (nm, '>' :: body) =>
      match parseNodes fuel body with
      | some (children, '<' :: '/' :: after2) =>
        match takeUntil (fun c => c = '>') after2 with
        | (cnm, '>' :: tail) =>
          if cnm.map lowerChar = nm.map lowerChar then
            some (.elem ⟨nm.map lowerChar⟩ children, tail)
          else none
        | _ => none
      | _ => none
    | _ => none
  | _ + 1, c :: cs =>
    some (.text ⟨(takeUntil (fun c => c = '<') (c :: cs)).1⟩,
      (takeUntil (fun c => c = '<') (c :: cs)).2)

def parseNodes : Nat → List Char → Option (List Node × List Char)
  | _, [] => some ([], [])
  | _, '<' :: '/' :: rest => some ([], '<' :: '/' :: rest)
  | 0, _ => none
  | fuel + 1, cs =>
    match parseNode fuel cs with
    | some (t, rest) =>
      match parseNodes fuel rest with
      | some (ts, rest2) => some (t :: ts, rest2)
      | none => none
    | none => none

end

/-- `BeautifulSoup(content, "html.parser")`, for balanced-tag documents. -/
def parse (doc : String) : Option (List Node) :=
  match parseNodes (doc.data.length + 1) doc.data with
  | some (ts, []) => some ts
  | _ => none

/-! ### Well-formedness of trees

`WfN`/`WfL` state exactly the invariants that hold of every tree the parser
produces (and that the augmenter preserves): tag names are already
case-normalized, contain no `>` and do not start with `/`; text runs are
non-empty, `<`-free and never adjacent.  These invariants make serialization
followed by re-parsing the identity.
-/

mutual

def WfN : Node → Prop
  | .elem n cs =>
    '>' ∉ n.data ∧ n.data.head? ≠ some '/' ∧ n.data.map lowerChar = n.data ∧ WfL cs
  | .text s => s.data ≠ [] ∧ '<' ∉ s.data

def WfL : List Node → Prop
  | [] => True
  | t :: ts => WfN t ∧ (isTextN t = true → headIsText ts = false) ∧ WfL ts

end

theorem takeUntil_snd_head (stop : Char → Bool) (l : List Char) :
    (takeUntil stop l).2 = [] ∨
      ∃ d ds, (takeUntil stop l).2 = d :: ds ∧ stop d = true := by
  induction l with
  | nil => left; rfl
  | cons c cs ih =>
    by_cases h : stop c
    · right; exact ⟨c, cs, by simp [takeUntil, h], h⟩
    · simpa [takeUntil, h] using ih

theorem map_lowerChar_idem (l : List Char) :
    (l.map lowerChar).map lowerChar = l.map lowerChar := by
  rw [List.map_map]
  exact List.map_congr_left (fun c _ => lowerChar_idem c)

theorem mem_map_lowerChar_ne (l : List Char) (d : Char)
    (hdn : ¬ (97 ≤ d.toNat ∧ d.toNat ≤ 122)) (h : ∀ c ∈ l, c ≠ d) :
    d ∉ l.map lowerChar := by
  intro hmem
  rcases List.mem_map.mp hmem with ⟨c, hc, hcd⟩
  exact lowerChar_ne_of_ne c d hdn (h c hc) hcd


theorem parseNode_lt_elem (fuel : Nat) (r : List Char) (t : Node) (rest : List Char)
    (h : parseNode fuel ('<' :: r) = some (t, rest)) : isTextN t = false := by
  rw [parseNode.eq_def] at h
  split at h
  · exact Option.noConfusion h
  · exact Option.noConfusion h
  · exact Option.noConfusion h
  · repeat split at h
    all_goals first
      | exact Option.noConfusion h
      | (simp only [Option.some.injEq, Prod.mk.injEq] at h
         obtain ⟨h1, h2⟩ := h
         subst h1
         rfl)
  · next b c d e f =>
    injection f with f1 f2
    exact (e f1.symm).elim

theorem headIsText_cons (t : Node) (ts : List Node) :
    headIsText (t :: ts) = isTextN t := by
  cases t <;> rfl

theorem decide_eq_false_ne {c d : Char} (h : decide (c = d) = false) : c ≠ d :=
  of_decide_eq_false h

theorem parseNodes_nil (f : Nat) : parseNodes f [] = some ([], []) := by
  simp [parseNodes]

theorem parseNodes_close (f : Nat) (r : List Char) :
    parseNodes f ('<' :: '/' :: r) = some ([], '<' :: '/' :: r) := by
  simp [parseNodes]

theorem parseNodes_zero (cs : List Char) (hne : cs ≠ [])
    (hnc : ∀ r, cs ≠ '<' :: '/' :: r) : parseNodes 0 cs = none := by
  rw [parseNodes.eq_def]
  split
  · exact absurd rfl hne
  · exact absurd rfl (hnc _)
  · rfl
  · omega

theorem parseNodes_succ_eq (f : Nat) (cs : List Char) (hne : cs ≠ [])
    (hnc : ∀ r, cs ≠ '<' :: '/' :: r) :
    parseNodes (f + 1) cs =
      match parseNode f cs with
      | some (t, rest) =>
        (match parseNodes f rest with
         | some (ts, rest2) => some (t :: ts, rest2)
         | none => none)
      | none => none := by
  rw [parseNodes.eq_def]
  split
  · exact absurd rfl hne
  · exact absurd rfl (hnc _)
  · omega
  · next f2 cs2 h1 h2 heq =>
    have hv : cs2 = f := by omega
    subst hv
    rfl

theorem parseNodes_lt_head (f : Nat) (r : List Char) (ts : List Node) (rest : List Char)
    (h : parseNodes f ('<' :: r) = some (ts, rest)) : headIsText ts = false := by
  by_cases hclose : ∃ r2, r = '/' :: r2
  · obtain ⟨r2, rfl⟩ := hclose
    rw [parseNodes_close] at h
    simp only [Option.some.injEq, Prod.mk.injEq] at h
    rw [← h.1]; rfl
  · have hnc : ∀ r3, '<' :: r ≠ '<' :: '/' :: r3 := by
      intro r3 hcon
      injection hcon with h1 h2
      exact hclose ⟨r3, h2⟩
    cases f with
    | zero =>
      rw [parseNodes_zero _ (by simp) hnc] at h
      exact Option.noConfusion h
    | succ f =>
      rw [parseNodes_succ_eq f _ (by simp) hnc] at h
      rcases hpn : parseNode f ('<' :: r) with _ | ⟨⟨t2, rest2⟩⟩
      · rw [hpn] at h; exact Option.noConfusion h
      · rw [hpn] at h
        dsimp only at h
        rcases hpns : parseNodes f rest2 with _ | ⟨⟨ts2, rest3⟩⟩
        · rw [hpns] at h; exact Option.noConfusion h
        · rw [hpns] at h
          dsimp only at h
          simp only [Option.some.injEq, Prod.mk.injEq] at h
          rw [← h.1, headIsText_cons]
          exact parseNode_lt_elem f r t2 rest2 hpn

theorem elemBranchWf (restIn nm body : List Char) (children : List Node)
    (hgrd : ∀ tl, restIn = '/' :: tl → False)
    (htake : takeUntil (fun c => decide (c = '>')) restIn = (nm, '>' :: body))
    (hWfChildren : WfL children) :
    WfN (Node.elem ⟨nm.map lowerChar⟩ children) := by
  have hnm : ∀ c ∈ nm, decide (c = '>') = false := by
    intro c hc
    have := takeUntil_fst_not_stop (fun c => decide (c = '>')) restIn
    rw [htake] at this
    exact this c hc
  have happ : nm ++ '>' :: body = restIn := by
    have := takeUntil_append_eq (fun c => decide (c = '>')) restIn
    rw [htake] at this
    exact this
  refine ⟨?_, ?_, ?_, hWfChildren⟩
  · exact mem_map_lowerChar_ne nm '>' (by decide)
      (fun c hc => decide_eq_false_ne (hnm c hc))
  · cases nm with
    | nil => simp
    | cons n0 ns =>
      simp only [List.map_cons, List.head?_cons, ne_eq, Option.some.injEq]
      intro hc
      have hn0 : n0 ≠ '/' := by
        intro rfl0
        exact hgrd (ns ++ '>' :: body) (by rw [← happ, rfl0]; rfl)
      exact lowerChar_ne_of_ne n0 '/' (by decide) hn0 hc
  · exact map_lowerChar_idem nm

/-- Every tree the parser emits is well-formed (`WfN`/`WfL`), and after a text
node the unconsumed input is empty or starts with `<`. -/
theorem parserOutputWf (fuel : Nat) :
    (∀ cs t rest, parseNode fuel cs = some (t, rest) →
       WfN t ∧ (isTextN t = true → rest = [] ∨ ∃ r, rest = '<' :: r)) ∧
    (∀ cs ts rest, parseNodes fuel cs = some (ts, rest) → WfL ts) := by
  induction fuel with
  | zero =>
    constructor
    · intro cs t rest h
      rw [parseNode.eq_def] at h
      split at h <;> first
        | exact Option.noConfusion h
        | omega
    · intro cs ts rest h
      by_cases hnil : cs = []
      · subst hnil
        rw [parseNodes_nil] at h
        simp only [Option.some.injEq, Prod.mk.injEq] at h
        rw [← h.1]; simp [WfL]
      · by_cases hclose : ∃ r, cs = '<' :: '/' :: r
        · obtain ⟨r, rfl⟩ := hclose
          rw [parseNodes_close] at h
          simp only [Option.some.injEq, Prod.mk.injEq] at h
          rw [← h.1]; simp [WfL]
        · rw [parseNodes_zero cs hnil (fun r hr => hclose ⟨r, hr⟩)] at h
          exact Option.noConfusion h
  | succ f ih =>
    obtain ⟨ihN, ihL⟩ := ih
    constructor
    · intro cs t rest h
      rw [parseNode.eq_def] at h
      split at h
      · exact Option.noConfusion h
      · exact Option.noConfusion h
      · exact Option.noConfusion h
      · -- element branch
        rename_i f2 rest1 hgrd heqf
        repeat split at h
        all_goals try exact Option.noConfusion h
        rename_i nmpair nm body heqtake pnres children after2 heqns cnmpair cnm tail heqtake2 hmape
        have hf2 : f2 = f := by omega
        subst hf2
        simp only [Option.some.injEq, Prod.mk.injEq] at h
        obtain ⟨ht, hrest⟩ := h
        subst ht
        subst hrest
        refine ⟨elemBranchWf rest1 nm body children hgrd heqtake
          (ihL body children _ heqns), ?_⟩
        intro hcontra
        simp [isTextN] at hcontra
      · -- text branch
        rename_i f2 b c hboth hblt heqcs
        simp only [Option.some.injEq, Prod.mk.injEq] at h
        obtain ⟨ht, hrest⟩ := h
        subst ht
        subst hrest
        have hb : decide (b = '<') = false := decide_eq_false hblt
        constructor
        · refine ⟨?_, ?_⟩
          · simp [takeUntil, hb]
          · intro hmem
            have := takeUntil_fst_not_stop (fun c => decide (c = '<')) (b :: c) '<' hmem
            simp at this
        · intro _
          rcases takeUntil_snd_head (fun c => decide (c = '<')) (b :: c) with h0 | ⟨d, ds, hds, hd⟩
          · left; exact h0
          · right
            have hdl : d = '<' := of_decide_eq_true hd
            exact ⟨ds, by rw [hds, hdl]⟩
    · intro cs ts rest h
      by_cases hnil : cs = []
      · subst hnil
        rw [parseNodes_nil] at h
        simp only [Option.some.injEq, Prod.mk.injEq] at h
        rw [← h.1]; simp [WfL]
      · by_cases hclose : ∃ r, cs = '<' :: '/' :: r
        · obtain ⟨r, rfl⟩ := hclose
          rw [parseNodes_close] at h
          simp only [Option.some.injEq, Prod.mk.injEq] at h
          rw [← h.1]; simp [WfL]
        · rw [parseNodes_succ_eq f cs hnil (fun r hr => hclose ⟨r, hr⟩)] at h
          rcases hpn : parseNode f cs with _ | ⟨⟨t2, rest2⟩⟩
          · rw [hpn] at h; exact Option.noConfusion h
          · rw [hpn] at h
            dsimp only at h
            rcases hpns : parseNodes f rest2 with _ | ⟨⟨ts2, rest3⟩⟩
            · rw [hpns] at h; exact Option.noConfusion h
            · rw [hpns] at h
              dsimp only at h
              simp only [Option.some.injEq, Prod.mk.injEq] at h
              obtain ⟨hts, hrest⟩ := h
              obtain ⟨hwf, htext⟩ := ihN _ _ _ hpn
              rw [← hts]
              refine ⟨hwf, ?_, ihL _ _ _ hpns⟩
              intro htxt
              rcases htext htxt with rfl | ⟨r, rfl⟩
              · rw [parseNodes_nil] at hpns
                simp only [Option.some.injEq, Prod.mk.injEq] at hpns
                rw [← hpns.1]; rfl
              · exact parseNodes_lt_head f r ts2 rest3 hpns

/-! ### Round trip: parsing a serialized well-formed tree gives it back -/

mutual

def needN : Node → Nat
  | .elem _ cs => 1 + needL cs
  | .text _ => 1

def needL : List Node → Nat
  | [] => 0
  | t :: ts => 1 + Nat.max (needN t) (needL ts)

end

theorem needN_pos (t : Node) : 1 ≤ needN t := by
  cases t <;> simp [needN]

theorem parseNode_succ_lt (f : Nat) (r0 : List Char) (hns : ∀ tl, r0 ≠ '/' :: tl) :
    parseNode (f + 1) ('<' :: r0) =
      match takeUntil (fun c => decide (c = '>')) r0 with
      | (nm, '>' :: body) =>
        (match parseNodes f body with
         | some (children, '<' :: '/' :: after2) =>
           (match takeUntil (fun c => decide (c = '>')) after2 with
            | (cnm, '>' :: tail) =>
              if cnm.map lowerChar = nm.map lowerChar then
                some (.elem ⟨nm.map lowerChar⟩ children, tail)
              else none
            | _ => none)
         | _ => none)
      | _ => none := by
  rw [parseNode.eq_def]
  split
  · omega
  · rename_i heq
    exact List.noConfusion heq
  · rename_i heq
    injection heq with h1 h2
    exact absurd h2 (hns _)
  · rename_i f2 rest1 hgrd heq1 heq2
    injection heq2 with h1 h2
    subst h2
    have hv : f2 = f := by omega
    subst hv
    rfl
  · rename_i hboth hblt hfeq heq
    injection heq with h1 h2
    exact absurd h1.symm hblt

theorem parseNode_succ_text (f : Nat) (b : Char) (c : List Char) (hb : b ≠ '<') :
    parseNode (f + 1) (b :: c) =
      some (.text ⟨(takeUntil (fun c => decide (c = '<')) (b :: c)).1⟩,
        (takeUntil (fun c => decide (c = '<')) (b :: c)).2) := by
  rw [parseNode.eq_def]
  split
  · omega
  · rename_i heq
    exact List.noConfusion heq
  · rename_i heq
    injection heq with h1 h2
    exact absurd h1 hb
  · rename_i f2 rest1 hgrd heq1 heq2
    injection heq2 with h1 h2
    exact absurd h1 hb
  · rename_i hboth hblt heq
    injection heq with h1 h2
    subst h1
    subst h2
    rfl

theorem render_ne_nil (t : Node) (hwf : WfN t) : render t ≠ [] := by
  cases t with
  | elem n cs => simp [render]
  | text s =>
    simp only [render]
    exact hwf.1

theorem render_not_close (t : Node) (hwf : WfN t) (suffix r : List Char) :
    render t ++ suffix ≠ '<' :: '/' :: r := by
  cases t with
  | elem n cs =>
    simp only [render, List.cons_append]
    intro hcon
    injection hcon with h1 h2
    rcases hn : n.data with _ | ⟨c, ns⟩
    · rw [hn] at h2
      simp only [List.nil_append, List.cons_append] at h2
      injection h2 with h3 h4
      exact absurd h3 (by decide)
    · rw [hn] at h2
      simp only [List.cons_append] at h2
      injection h2 with h3 h4
      have := hwf.2.1
      rw [hn] at this
      simp only [List.head?_cons, ne_eq, Option.some.injEq] at this
      exact this h3
  | text s =>
    simp only [render]
    intro hcon
    rcases hd : s.data with _ | ⟨b, bs⟩
    · exact hwf.1 hd
    · rw [hd] at hcon
      injection hcon with h1 h2
      exact hwf.2 (by rw [hd, h1]; exact List.mem_cons_self _ _)

theorem render_lt_head (t : Node) (htx : isTextN t = false) :
    ∃ r, render t = '<' :: r := by
  cases t with
  | elem n cs => exact ⟨_, rfl⟩
  | text s => simp [isTextN] at htx

mutual

theorem rtN (t : Node) (hwf : WfN t) (rest : List Char)
    (hrest : isTextN t = true → rest = [] ∨ ∃ r, rest = '<' :: r) :
    ∀ fuel, needN t ≤ fuel → parseNode fuel (render t ++ rest) = some (t, rest) := by
  intro fuel hfuel
  cases t with
  | text s =>
    obtain ⟨sd⟩ := s
    obtain ⟨f, rfl⟩ : ∃ f, fuel = f + 1 := by
      have := needN_pos (Node.text ⟨sd⟩)
      exact ⟨fuel - 1, by omega⟩
    rcases hd : sd with _ | ⟨b, bs⟩
    · exact absurd hd hwf.1
    · subst hd
      have hb : b ≠ '<' := by
        intro hcon
        exact hwf.2 (by rw [hcon]; exact List.mem_cons_self _ _)
      simp only [render, List.cons_append]
      rw [parseNode_succ_text f b (bs ++ rest) hb]
      have htk : takeUntil (fun c => decide (c = '<')) ((b :: bs) ++ rest) = (b :: bs, rest) := by
        apply takeUntil_append
        · intro c hc
          simp only [decide_eq_false_iff_not]
          intro hceq
          exact hwf.2 (by rw [← hceq]; exact hc)
        · rcases hrest rfl with h0 | ⟨r, hr⟩
          · left; exact h0
          · right; exact ⟨'<', r, hr, by decide⟩
      simp only [List.cons_append] at htk
      rw [htk]
  | elem n cs =>
    obtain ⟨nd⟩ := n
    obtain ⟨f, rfl⟩ : ∃ f, fuel = f + 1 := by
      have := needN_pos (Node.elem ⟨nd⟩ cs)
      exact ⟨fuel - 1, by omega⟩
    have hfc : needL cs ≤ f := by
      simp only [needN] at hfuel
      omega
    obtain ⟨hgt, hhd, hmap, hwfc⟩ := hwf
    simp only [render, List.cons_append, List.append_assoc, List.nil_append]
    rw [parseNode_succ_lt f _ (by
      intro tl hcon
      rcases hn : nd with _ | ⟨c0, ns⟩
      · rw [hn] at hcon
        simp only [List.nil_append, List.cons_append] at hcon
        injection hcon with h3 h4
        exact absurd h3 (by decide)
      · rw [hn] at hcon
        simp only [List.cons_append] at hcon
        injection hcon with h3 h4
        rw [hn] at hhd
        simp only [List.head?_cons, ne_eq, Option.some.injEq] at hhd
        exact hhd h3)]
    have htk : takeUntil (fun c => decide (c = '>'))
        (nd ++ '>' :: (renderL cs ++ '<' :: '/' :: (nd ++ '>' :: rest))) =
        (nd, '>' :: (renderL cs ++ '<' :: '/' :: (nd ++ '>' :: rest))) := by
      apply takeUntil_append
      · intro c hc
        simp only [decide_eq_false_iff_not]
        intro hceq
        exact hgt (by rw [← hceq]; exact hc)
      · right; exact ⟨'>', _, rfl, by decide⟩
    have htk2 : takeUntil (fun c => decide (c = '>')) (nd ++ '>' :: rest) =
        (nd, '>' :: rest) := by
      apply takeUntil_append
      · intro c hc
        simp only [decide_eq_false_iff_not]
        intro hceq
        exact hgt (by rw [← hceq]; exact hc)
      · right; exact ⟨'>', _, rfl, by decide⟩
    simp only [htk, rtL cs hwfc ('<' :: '/' :: (nd ++ '>' :: rest)) (Or.inr ⟨_, rfl⟩) f hfc,
      htk2, show (List.map lowerChar nd) = nd from hmap]
    simp

theorem rtL (ts : List Node) (hwf : WfL ts) (rest : List Char)
    (hrest : rest = [] ∨ ∃ r, rest = '<' :: '/' :: r) :
    ∀ fuel, needL ts ≤ fuel → parseNodes fuel (renderL ts ++ rest) = some (ts, rest) := by
  intro fuel hfuel
  cases ts with
  | nil =>
    simp only [renderL, List.nil_append]
    rcases hrest with rfl | ⟨r, rfl⟩
    · exact parseNodes_nil fuel
    · exact parseNodes_close fuel r
  | cons t ts2 =>
    obtain ⟨hwt, hchain, hwts⟩ := hwf
    obtain ⟨f, rfl⟩ : ∃ f, fuel = f + 1 := by
      simp only [needL] at hfuel
      exact ⟨fuel - 1, by omega⟩
    have hft : needN t ≤ f := by
      simp only [needL] at hfuel
      have h1 : needN t ≤ Nat.max (needN t) (needL ts2) := Nat.le_max_left _ _
      omega
    have hfts : needL ts2 ≤ f := by
      simp only [needL] at hfuel
      have h1 : needL ts2 ≤ Nat.max (needN t) (needL ts2) := Nat.le_max_right _ _
      omega
    simp only [renderL, List.append_assoc]
    rw [parseNodes_succ_eq f _ (by
        intro hcon
        rcases List.append_eq_nil.mp hcon with ⟨h1, _⟩
        exact render_ne_nil t hwt h1)
      (by
        intro r hcon
        exact render_not_close t hwt _ r hcon)]
    simp only [rtN t hwt (renderL ts2 ++ rest) (by
      intro htxt
      cases ts2 with
      | nil =>
        simp only [renderL, List.nil_append]
        rcases hrest with rfl | ⟨r, rfl⟩
        · left; rfl
        · right; exact ⟨'/' :: r, rfl⟩
      | cons t2 ts3 =>
        right
        have ht2 : isTextN t2 = false := by
          have := hchain htxt
          rw [headIsText_cons] at this
          exact this
        obtain ⟨r2, hr2⟩ := render_lt_head t2 ht2
        exact ⟨r2 ++ (renderL ts3 ++ rest), by simp [renderL, hr2]⟩) f hft, rtL ts2 hwts rest hrest f hfts]

end

mutual

theorem needN_le (t : Node) (h : WfN t) : needN t ≤ (render t).length := by
  cases t with
  | elem n cs =>
    have hc : needL cs ≤ (renderL cs).length + 1 := needL_le cs h.2.2.2
    simp only [needN, render, List.length_cons, List.length_append]
    omega
  | text s =>
    simp only [needN, render]
    rcases hd : s.data with _ | ⟨b, bs⟩
    · exact absurd hd h.1
    · simp [hd]

theorem needL_le (ts : List Node) (h : WfL ts) : needL ts ≤ (renderL ts).length + 1 := by
  cases ts with
  | nil => simp [needL, renderL]
  | cons t ts2 =>
    have h1 : needN t ≤ (render t).length := needN_le t h.1
    have h2 : needL ts2 ≤ (renderL ts2).length + 1 := needL_le ts2 h.2.2
    have h3 : render t ≠ [] := render_ne_nil t h.1
    have h4 : 1 ≤ (render t).length := by
      rcases hr : render t with _ | ⟨c, cr⟩
      · exact absurd hr h3
      · simp
    simp only [needL, renderL, List.length_append]
    have h5 : Nat.max (needN t) (needL ts2) ≤ (render t).length + (renderL ts2).length := by
      apply Nat.max_le.mpr
      constructor
      · omega
      · omega
    omega

end

/-- Serializing a well-formed tree and re-parsing the text gives the tree back:
`BeautifulSoup(str(soup), "html.parser")` re-reads what it wrote. -/
theorem parse_renderDoc (ts : List Node) (hwf : WfL ts) :
    parse (renderDoc ts) = some ts := by
  unfold parse renderDoc
  have hfl : needL ts ≤ (renderL ts).length + 1 := needL_le ts hwf
  have h := rtL ts hwf [] (Or.inl rfl) ((renderL ts).length + 1) hfl
  rw [List.append_nil] at h
  simp only [String.data]
  rw [h]

/-! ### Tag extraction (`load_html_tags`)

`soup.find_all()` walks all element tags in document order; the source builds
`set(tag.name for tag in soup.find_all())`, iterates it in `sorted` order and
keeps names with `len(tag) > 0`.
-/

mutual

def namesN : Node → List String
  | .elem n cs => n :: namesL cs
  | .text _ => []

def namesL : List Node → List String
  | [] => []
  | t :: ts => namesN t ++ namesL ts

end

/-- The tag list the source's `load_html_tags` builds from a parsed document:
distinct names, sorted ascending, non-empty only.  `none` models the
`except` path (the "parsing failure reported, set unavailable" condition). -/
def load_html_tags (content : String) : Option (List String) :=
  (parse content).map fun ts =>
    (((namesL ts).dedup.insertionSort strLeR).filter fun n => n.length != 0)

theorem mem_sortedTags (ts : List Node) (n : String) :
    n ∈ ((namesL ts).dedup.insertionSort strLeR).filter (fun n => n.length != 0) ↔
      n ∈ namesL ts ∧ n ≠ "" := by
  rw [List.mem_filter]
  rw [(List.perm_insertionSort strLeR (namesL ts).dedup).mem_iff]
  rw [List.mem_dedup]
  constructor
  · rintro ⟨h1, h2⟩
    refine ⟨h1, ?_⟩
    intro hcon
    rw [hcon] at h2
    simp at h2
  · rintro ⟨h1, h2⟩
    refine ⟨h1, ?_⟩
    simp only [bne_iff_ne, ne_eq]
    intro hlen
    apply h2
    have hd : n.data = [] := List.eq_nil_of_length_eq_zero hlen
    obtain ⟨d⟩ := n
    exact congrArg String.mk hd

/-- ASCII-lowercasing of a whole string (the case normalization applied to
tag names by the parser). -/
def lowerStr (s : String) : String := ⟨s.data.map lowerChar⟩

theorem lowerStr_fix (n : String) (h : n.data.map lowerChar = n.data) :
    lowerStr n = n := by
  obtain ⟨d⟩ := n
  exact congrArg String.mk h

theorem tags_sorted (l : List String) :
    List.Sorted strLeR ((l.dedup.insertionSort strLeR).filter fun n => n.length != 0) :=
  List.Pairwise.filter _ (List.sorted_insertionSort strLeR l.dedup)

theorem tags_nodup (l : List String) :
    List.Nodup ((l.dedup.insertionSort strLeR).filter fun n => n.length != 0) :=
  List.Nodup.filter _ ((List.perm_insertionSort strLeR l.dedup).symm.nodup
    (List.nodup_dedup l))

mutual

theorem namesN_lower (t : Node) (h : WfN t) :
    ∀ n ∈ namesN t, n.data.map lowerChar = n.data := by
  cases t with
  | elem nm cs =>
    intro n hn
    simp only [namesN, List.mem_cons] at hn
    rcases hn with rfl | hn
    · exact h.2.2.1
    · exact namesL_lower cs h.2.2.2 n hn
  | text s =>
    intro n hn
    simp [namesN] at hn

theorem namesL_lower (ts : List Node) (h : WfL ts) :
    ∀ n ∈ namesL ts, n.data.map lowerChar = n.data := by
  cases ts with
  | nil =>
    intro n hn
    simp [namesL] at hn
  | cons t ts2 =>
    intro n hn
    simp only [namesL, List.mem_append] at hn
    rcases hn with hn | hn
    · exact namesN_lower t h.1 n hn
    · exact namesL_lower ts2 h.2.2 n hn

end

/-! ### Style injection into the tree (`modify_html`'s soup mutation)

`soup.head` / `soup.html` are `find`s: the first element with that name in
document (pre-)order.  `soup.head.append(style_tag)` appends as last child;
`soup.html.insert(0, head_tag)` puts a synthesized head first among `html`'s
children.  `replaceFirst*` rebuilds the tree around the first match;
`childrenFirst*` is the corresponding observer.
-/

mutual

def replaceFirstN (name : String) (f : List Node → List Node) : Node → Option Node
  | .elem n cs =>
    if n = name then some (.elem n (f cs))
    else (replaceFirstL name f cs).map (.elem n ·)
  | .text _ => none

def replaceFirstL (name : String) (f : List Node → List Node) :
    List Node → Option (List Node)
  | [] => none
  | t :: ts =>
    match replaceFirstN name f t with
    | some t2 => some (t2 :: ts)
    | none => (replaceFirstL name f ts).map (t :: ·)

end

mutual

def childrenFirstN (name : String) : Node → Option (List Node)
  | .elem n cs => if n = name then some cs else childrenFirstL name cs
  | .text _ => none

def childrenFirstL (name : String) : List Node → Option (List Node)
  | [] => none
  | t :: ts =>
    match childrenFirstN name t with
    | some cs => some cs
    | none => childrenFirstL name ts

end

mutual

theorem replaceFirstN_none (name : String) (f : List Node → List Node) (t : Node) :
    replaceFirstN name f t = none ↔ childrenFirstN name t = none := by
  cases t with
  | elem n cs =>
    by_cases hn : n = name
    · simp [replaceFirstN, childrenFirstN, hn]
    · simp only [replaceFirstN, childrenFirstN, hn, if_false, Option.map_eq_none']
      exact replaceFirstL_none name f cs
  | text s => simp [replaceFirstN, childrenFirstN]

theorem replaceFirstL_none (name : String) (f : List Node → List Node) (ts : List Node) :
    replaceFirstL name f ts = none ↔ childrenFirstL name ts = none := by
  cases ts with
  | nil => simp [replaceFirstL, childrenFirstL]
  | cons t ts2 =>
    simp only [replaceFirstL, childrenFirstL]
    rcases hn : replaceFirstN name f t with _ | t2
    · simp only [hn, (replaceFirstN_none name f t).mp hn, Option.map_eq_none']
      exact replaceFirstL_none name f ts2
    · rcases hc : childrenFirstN name t with _ | cs0
      · rw [(replaceFirstN_none name f t).mpr hc] at hn
        exact Option.noConfusion hn
      · simp only [hn, hc]
        simp

end

theorem replaceFirstN_not_text (name : String) (f : List Node → List Node) (t t2 : Node)
    (h : replaceFirstN name f t = some t2) : isTextN t = false := by
  cases t with
  | elem n cs => rfl
  | text s => exact Option.noConfusion h

mutual

theorem replaceFirstN_children (name : String) (f : List Node → List Node) (t t2 : Node)
    (h : replaceFirstN name f t = some t2) :
    ∃ cs0, childrenFirstN name t = some cs0 ∧ childrenFirstN name t2 = some (f cs0) := by
  cases t with
  | elem n cs =>
    by_cases hn : n = name
    · simp only [replaceFirstN, hn, if_true, Option.some.injEq] at h
      refine ⟨cs, by simp [childrenFirstN, hn], ?_⟩
      rw [← h]
      simp [childrenFirstN, hn]
    · simp only [replaceFirstN, hn, if_false] at h
      rcases Option.map_eq_some'.mp h with ⟨cs2, hcs2, rfl⟩
      obtain ⟨cs0, h1, h2⟩ := replaceFirstL_children name f cs cs2 hcs2
      exact ⟨cs0, by simp [childrenFirstN, hn, h1], by simp [childrenFirstN, hn, h2]⟩
  | text s => exact Option.noConfusion h

theorem replaceFirstL_children (name : String) (f : List Node → List Node)
    (ts ts2 : List Node) (h : replaceFirstL name f ts = some ts2) :
    ∃ cs0, childrenFirstL name ts = some cs0 ∧ childrenFirstL name ts2 = some (f cs0) := by
  cases ts with
  | nil => exact Option.noConfusion h
  | cons t rest =>
    simp only [replaceFirstL] at h
    rcases hn : replaceFirstN name f t with _ | t2'
    · rw [hn] at h
      simp only at h
      rcases Option.map_eq_some'.mp h with ⟨rest2, hrest2, rfl⟩
      obtain ⟨cs0, h1, h2⟩ := replaceFirstL_children name f rest rest2 hrest2
      have hcn : childrenFirstN name t = none := (replaceFirstN_none name f t).mp hn
      exact ⟨cs0, by simp [childrenFirstL, hcn, h1], by simp [childrenFirstL, hcn, h2]⟩
    · rw [hn] at h
      simp only [Option.some.injEq] at h
      obtain ⟨cs0, h1, h2⟩ := replaceFirstN_children name f t t2' hn
      refine ⟨cs0, by simp [childrenFirstL, h1], ?_⟩
      rw [← h]
      simp [childrenFirstL, h2]

end

mutual

theorem childrenFirstN_names (name : String) (t : Node) (cs0 : List Node)
    (h : childrenFirstN name t = some cs0) :
    name ∈ namesN t ∧ ∀ n ∈ namesL cs0, n ∈ namesN t := by
  cases t with
  | elem nm cs =>
    by_cases hn : nm = name
    · simp only [childrenFirstN, hn, if_true, Option.some.injEq] at h
      subst hn
      subst h
      exact ⟨by simp [namesN], fun n hn2 => by simp [namesN, hn2]⟩
    · simp only [childrenFirstN, hn, if_false] at h
      obtain ⟨h1, h2⟩ := childrenFirstL_names name cs cs0 h
      exact ⟨by simp [namesN, h1], fun n hn2 => by simp [namesN, h2 n hn2]⟩
  | text s => exact Option.noConfusion h

theorem childrenFirstL_names (name : String) (ts : List Node) (cs0 : List Node)
    (h : childrenFirstL name ts = some cs0) :
    name ∈ namesL ts ∧ ∀ n ∈ namesL cs0, n ∈ namesL ts := by
  cases ts with
  | nil => exact Option.noConfusion h
  | cons t rest =>
    simp only [childrenFirstL] at h
    rcases hn : childrenFirstN name t with _ | cs1
    · rw [hn] at h
      simp only at h
      obtain ⟨h1, h2⟩ := childrenFirstL_names name rest cs0 h
      exact ⟨by simp [namesL, h1], fun n hn2 => by simp [namesL, h2 n hn2]⟩
    · rw [hn] at h
      simp only [Option.some.injEq] at h
      obtain ⟨h1, h2⟩ := childrenFirstN_names name t cs1 hn
      refine ⟨by simp [namesL, h1], fun n hn2 => ?_⟩
      rw [← h] at hn2
      simp [namesL, h2 n hn2]

end

mutual

theorem replaceFirstN_names_sub (name : String) (f : List Node → List Node) (t t2 : Node)
    (hf : ∀ cs, ∀ n ∈ namesL cs, n ∈ namesL (f cs))
    (h : replaceFirstN name f t = some t2) :
    ∀ n ∈ namesN t, n ∈ namesN t2 := by
  cases t with
  | elem nm cs =>
    by_cases hn : nm = name
    · subst hn
      simp only [replaceFirstN, if_true, Option.some.injEq] at h
      subst h
      intro n hn2
      simp only [namesN, List.mem_cons] at hn2 ⊢
      rcases hn2 with rfl | hn2
      · exact Or.inl rfl
      · exact Or.inr (hf cs n hn2)
    · simp only [replaceFirstN, hn, if_false] at h
      rcases Option.map_eq_some'.mp h with ⟨cs2, hcs2, rfl⟩
      intro n hn2
      simp only [namesN, List.mem_cons] at hn2 ⊢
      rcases hn2 with rfl | hn2
      · exact Or.inl rfl
      · exact Or.inr (replaceFirstL_names_sub name f cs cs2 hf hcs2 n hn2)
  | text s => exact Option.noConfusion h

theorem replaceFirstL_names_sub (name : String) (f : List Node → List Node)
    (ts ts2 : List Node)
    (hf : ∀ cs, ∀ n ∈ namesL cs, n ∈ namesL (f cs))
    (h : replaceFirstL name f ts = some ts2) :
    ∀ n ∈ namesL ts, n ∈ namesL ts2 := by
  cases ts with
  | nil => exact Option.noConfusion h
  | cons t rest =>
    simp only [replaceFirstL] at h
    rcases hn : replaceFirstN name f t with _ | t2'
    · rw [hn] at h
      simp only at h
      rcases Option.map_eq_some'.mp h with ⟨rest2, hrest2, rfl⟩
      intro n hn2
      simp only [namesL, List.mem_append] at hn2 ⊢
      rcases hn2 with hn2 | hn2
      · exact Or.inl hn2
      · exact Or.inr (replaceFirstL_names_sub name f rest rest2 hf hrest2 n hn2)
    · rw [hn] at h
      simp only [Option.some.injEq] at h
      subst h
      intro n hn2
      simp only [namesL, List.mem_append] at hn2 ⊢
      rcases hn2 with hn2 | hn2
      · exact Or.inl (replaceFirstN_names_sub name f t t2' hf hn n hn2)
      · exact Or.inr hn2

end

mutual

theorem replaceFirstN_wf (name : String) (f : List Node → List Node) (t t2 : Node)
    (hfw : ∀ cs, WfL cs → WfL (f cs))
    (h : replaceFirstN name f t = some t2) (hw : WfN t) :
    WfN t2 ∧ isTextN t2 = false := by
  cases t with
  | elem nm cs =>
    by_cases hn : nm = name
    · subst hn
      simp only [replaceFirstN, if_true, Option.some.injEq] at h
      subst h
      exact ⟨⟨hw.1, hw.2.1, hw.2.2.1, hfw cs hw.2.2.2⟩, rfl⟩
    · simp only [replaceFirstN, hn, if_false] at h
      rcases Option.map_eq_some'.mp h with ⟨cs2, hcs2, rfl⟩
      exact ⟨⟨hw.1, hw.2.1, hw.2.2.1,
        replaceFirstL_wf name f cs cs2 hfw hcs2 hw.2.2.2 |>.1⟩, rfl⟩
  | text s => exact Option.noConfusion h

theorem replaceFirstL_wf (name : String) (f : List Node → List Node)
    (ts ts2 : List Node) (hfw : ∀ cs, WfL cs → WfL (f cs))
    (h : replaceFirstL name f ts = some ts2) (hw : WfL ts) :
    WfL ts2 ∧ headIsText ts2 = headIsText ts := by
  cases ts with
  | nil => exact Option.noConfusion h
  | cons t rest =>
    simp only [replaceFirstL] at h
    rcases hn : replaceFirstN name f t with _ | t2'
    · rw [hn] at h
      simp only at h
      rcases Option.map_eq_some'.mp h with ⟨rest2, hrest2, rfl⟩
      obtain ⟨hw1, hw2, hw3⟩ := hw
      obtain ⟨hrw, hrh⟩ := replaceFirstL_wf name f rest rest2 hfw hrest2 hw3
      refine ⟨⟨hw1, ?_, hrw⟩, ?_⟩
      · intro ht
        rw [hrh]
        exact hw2 ht
      · rw [headIsText_cons, headIsText_cons]
    · rw [hn] at h
      simp only [Option.some.injEq] at h
      subst h
      obtain ⟨hw1, hw2, hw3⟩ := hw
      obtain ⟨ht2, ht2f⟩ := replaceFirstN_wf name f t t2' hfw hn hw1
      refine ⟨⟨ht2, ?_, hw3⟩, ?_⟩
      · intro hcon
        rw [ht2f] at hcon
        exact Bool.noConfusion hcon
      · rw [headIsText_cons, headIsText_cons, ht2f,
          replaceFirstN_not_text name f t t2' hn]

end

/-! ### The augmentation pipeline (`modify_html`)

Below, `FONT_NAME` is the module-level constant; `buildCss` is the exact
f-string of the source (brace characters written as escapes); `augmentTree`
is the soup mutation; `modify_html` is the whole handler over an explicit
filesystem, with one failure-injection flag per fallible persistence step
(`os.makedirs`, `shutil.copy2`, the final `open(...,'w').write`).  Every
`except`-caught abort is a distinct `MResult` constructor.
-/

def FONT_NAME : String := "MyCustomFont"

/-- The CSS block `modify_html` builds (verbatim f-string from the source,
parameterized on the module constant `FONT_NAME` and the selection). -/
def buildCss (font_name : String) (selected_tags : List String) : String :=
  "\n            @font-face \x7b\n                font-family: '" ++ font_name ++
  "';\n                src: url('" ++ font_name ++
  ".ttf') format('truetype');\n                font-weight: normal;\n                font-style: normal;\n            \x7d\n\n            " ++
  String.intercalate ", " selected_tags ++
  " \x7b\n                font-family: '" ++ font_name ++
  "', sans-serif;\n            \x7d\n            "

/-- `style_tag = soup.new_tag('style'); style_tag.string = css`. -/
def styleNode (css : String) : Node := Node.elem "style" [Node.text css]

/-- The soup mutation of `modify_html`: append the style tag to `soup.head`
when present, else synthesize `head` around it and insert it at index 0 of
`soup.html`'s children.  `none` is the `AttributeError` raised (and caught)
when the document has neither a `head` nor an `html` element. -/
def augmentTree (style : Node) (ts : List Node) : Option (List Node) :=
  match replaceFirstL "head" (fun cs => cs ++ [style]) ts with
  | some ts2 => some ts2
  | none => replaceFirstL "html" (fun cs => Node.elem "head" [style] :: cs) ts

/-- `os.path.basename` (POSIX): the part after the last `/`. -/
def basename (p : String) : String :=
  ⟨(p.data.reverse.takeWhile (fun c => c != '/')).reverse⟩

/-- The raw head `p[:i+1]` of `posixpath.split` (up to and including the last
`/`; empty when there is no slash). -/
def dirRaw (p : String) : String :=
  ⟨(p.data.reverse.dropWhile (fun c => c != '/')).reverse⟩

/-- `os.path.dirname` (POSIX): the raw head with trailing slashes stripped
unless it consists of slashes only. -/
def dirname (p : String) : String :=
  if (dirRaw p).data.all (fun c => c == '/') then dirRaw p
  else ⟨((dirRaw p).data.reverse.dropWhile (fun c => c == '/')).reverse⟩

/-- `os.path.join` (POSIX) for a relative second component. -/
def pyJoin (a b : String) : String :=
  if a = "" then b
  else if a.data.getLast? = some '/' then a ++ b
  else a ++ "/" ++ b

/-- Path of the backup file `modify_html` writes for a given document. -/
def backupPath (html_file : String) : String :=
  pyJoin (pyJoin (dirname html_file) "backups") (basename html_file)

/-- The session's file system: file contents by path, plus existing
directories (only `backups` creation matters here). -/
structure AppFS where
  files : List (String × String)
  dirs : List String

def getFile (fs : AppFS) (p : String) : Option String := fs.files.lookup p

def setFile (fs : AppFS) (p : String) (content : String) : AppFS :=
  ⟨(p, content) :: fs.files, fs.dirs⟩

def addDir (fs : AppFS) (d : String) : AppFS := ⟨fs.files, d :: fs.dirs⟩

/-- Outcome of one `modify_html` invocation.  `noFile`/`noTags` are the two
validation rejections; `loadError`/`augmentError`/`mkdirFailed`/`copyFailed`/
`writeFailed` are the `except`-caught aborts, distinguished by the step that
raised. -/
inductive MResult where
  | noFile
  | noTags
  | loadError
  | augmentError
  | mkdirFailed
  | copyFailed
  | writeFailed
  | ok
deriving DecidableEq

/-- `modify_html` from the source, step for step: validate, read, parse,
build css, mutate the soup, `os.makedirs(backup_dir, exist_ok=True)`,
`shutil.copy2(html_file, backup_file)`, then write the serialized soup over
the original.  The three Booleans inject failures into the three
persistence steps (an exception there is caught by the `except`). -/
def modify_html (fs : AppFS) (html_file : String) (selected_tags : List String)
    (mkdirOk copyOk writeOk : Bool) : MResult × AppFS :=
  if html_file = "" then (MResult.noFile, fs)
  else if selected_tags = [] then (MResult.noTags, fs)
  else
    match getFile fs html_file with
    | none => (MResult.loadError, fs)
    | some content =>
      match parse content with
      | none => (MResult.loadError, fs)
      | some ts =>
        match augmentTree (styleNode (buildCss FONT_NAME selected_tags)) ts with
        | none => (MResult.augmentError, fs)
        | some ts2 =>
          match mkdirOk with
          | false => (MResult.mkdirFailed, fs)
          | true =>
            match copyOk with
            | false =>
              (MResult.copyFailed, addDir fs (pyJoin (dirname html_file) "backups"))
            | true =>
              match writeOk with
              | false =>
                (MResult.writeFailed,
                  setFile (addDir fs (pyJoin (dirname html_file) "backups"))
                    (backupPath html_file) content)
              | true =>
                (MResult.ok,
                  setFile
                    (setFile (addDir fs (pyJoin (dirname html_file) "backups"))
                      (backupPath html_file) content)
                    html_file (renderDoc ts2))

theorem str_data_append (a b : String) : (a ++ b).data = a.data ++ b.data := rfl

theorem dirRaw_append_basename (p : String) :
    (dirRaw p).data ++ (basename p).data = p.data := by
  show ((p.data.reverse.dropWhile (fun c => c != '/')).reverse) ++
    ((p.data.reverse.takeWhile (fun c => c != '/')).reverse) = p.data
  rw [← List.reverse_append, List.takeWhile_append_dropWhile, List.reverse_reverse]

theorem dirRaw_shape (p : String) :
    (dirRaw p).data = [] ∨ ∃ l, (dirRaw p).data = l ++ ['/'] := by
  show ((p.data.reverse.dropWhile (fun c => c != '/')).reverse) = [] ∨ _
  rcases hd : p.data.reverse.dropWhile (fun c => c != '/') with _ | ⟨x, xs⟩
  · left; simp
  · right
    have hx : (x != '/') = false := by
      have := List.head?_dropWhile_not (fun c => c != '/') p.data.reverse
      rw [hd] at this
      simpa using this
    have hx2 : x = '/' := by simpa using hx
    refine ⟨xs.reverse, ?_⟩
    show (List.dropWhile (fun c => c != '/') p.data.reverse).reverse = xs.reverse ++ ['/']
    rw [hd, List.reverse_cons, hx2]

theorem backupPath_ne (p : String) : backupPath p ≠ p := by
  intro hcon
  have hdata : (backupPath p).data = p.data := congrArg String.data hcon
  unfold backupPath at hdata
  have hsplit := dirRaw_append_basename p
  rcases dirRaw_shape p with hnil | ⟨l, hl⟩
  · -- no slash in p: dirname p = "" and p = basename p
    have hdn : dirname p = "" := by
      unfold dirname
      rw [if_pos (by rw [hnil]; rfl)]
      exact congrArg String.mk hnil
    rw [hdn] at hdata
    rw [hnil, List.nil_append] at hsplit
    have hj1 : pyJoin "" "backups" = "backups" := rfl
    rw [hj1] at hdata
    have hj2 : pyJoin "backups" (basename p) = "backups" ++ "/" ++ basename p := by
      unfold pyJoin
      rw [if_neg (by decide), if_neg (by decide)]
    rw [hj2] at hdata
    rw [str_data_append, str_data_append, ← hsplit] at hdata
    have hlen := congrArg List.length hdata
    simp at hlen
    omega
  · -- p has a slash: dirRaw p = l ++ "/"
    by_cases hall : (dirRaw p).data.all (fun c => c == '/')
    · -- directory part is all slashes; dirname = dirRaw, ends in '/'
      have hdn : dirname p = dirRaw p := by
        unfold dirname
        rw [if_pos hall]
      rw [hdn] at hdata
      have hne : dirRaw p ≠ "" := by
        intro hcon2
        have h3 := congrArg String.data hcon2
        rw [hl] at h3
        simp at h3
      have hlast : (dirRaw p).data.getLast? = some '/' := by
        rw [hl]
        exact List.getLast?_concat l
      have hj1 : pyJoin (dirRaw p) "backups" = dirRaw p ++ "backups" := by
        unfold pyJoin
        rw [if_neg hne, if_pos hlast]
      rw [hj1] at hdata
      have hne2 : dirRaw p ++ "backups" ≠ "" := by
        intro hcon2
        have h3 := congrArg String.data hcon2
        rw [str_data_append] at h3
        have h4 := congrArg List.length h3
        simp at h4
      have hlast2 : (dirRaw p ++ "backups").data.getLast? = some 's' := by
        rw [str_data_append]
        rw [List.getLast?_append_of_ne_nil _ (by decide : ("backups" : String).data ≠ [])]
        decide
      have hj2 : pyJoin (dirRaw p ++ "backups") (basename p) =
          dirRaw p ++ "backups" ++ "/" ++ basename p := by
        unfold pyJoin
        rw [if_neg hne2, if_neg (by rw [hlast2]; decide)]
      rw [hj2] at hdata
      rw [str_data_append, str_data_append, str_data_append, ← hsplit] at hdata
      rw [List.append_assoc, List.append_assoc] at hdata
      have hcancel := List.append_cancel_left hdata
      have hlen := congrArg List.length hcancel
      simp at hlen
      omega
    · -- mixed directory part: dirname strips the trailing slashes
      have hdn : dirname p = ⟨((dirRaw p).data.reverse.dropWhile (fun c => c == '/')).reverse⟩ := by
        unfold dirname
        rw [if_neg hall]
      set strip := (dirRaw p).data.reverse.dropWhile (fun c => c == '/') with hstrip
      set slh := (dirRaw p).data.reverse.takeWhile (fun c => c == '/') with hslh
      have hdecomp : (dirRaw p).data = strip.reverse ++ slh.reverse := by
        rw [hstrip, hslh, ← List.reverse_append, List.takeWhile_append_dropWhile,
          List.reverse_reverse]
      have hslhne : slh ≠ [] := by
        rw [hslh, hl]
        rw [List.reverse_append]
        simp
      have hstripne : strip ≠ [] := by
        intro hcon2
        apply hall
        rw [List.all_eq_true]
        intro c hc
        have := List.dropWhile_eq_nil_iff.mp (hstrip ▸ hcon2) c (List.mem_reverse.mpr hc)
        exact this
      have hstriplast : strip.reverse.getLast? ≠ some '/' := by
        rw [List.getLast?_reverse]
        rcases hs : strip with _ | ⟨y, ys⟩
        · exact absurd hs hstripne
        · have hy : (y == '/') = false := by
            have := List.head?_dropWhile_not (fun c => c == '/') (dirRaw p).data.reverse
            rw [← hstrip, hs] at this
            simpa using this
          simp only [List.head?_cons, ne_eq, Option.some.injEq]
          intro hcon2
          rw [hcon2] at hy
          simp at hy
      have hdne : (⟨strip.reverse⟩ : String) ≠ "" := by
        intro hcon2
        have h3 := congrArg String.data hcon2
        simp at h3
        exact hstripne (by simpa using congrArg List.reverse h3)
      rw [hdn] at hdata
      have hj1 : pyJoin ⟨strip.reverse⟩ "backups" = (⟨strip.reverse⟩ : String) ++ "/" ++ "backups" := by
        unfold pyJoin
        rw [if_neg hdne, if_neg hstriplast]
      rw [hj1] at hdata
      have hne2 : (⟨strip.reverse⟩ : String) ++ "/" ++ "backups" ≠ "" := by
        intro hcon2
        have h3 := congrArg String.data hcon2
        rw [str_data_append, str_data_append] at h3
        have h4 := congrArg List.length h3
        simp at h4
      have hlast2 : ((⟨strip.reverse⟩ : String) ++ "/" ++ "backups").data.getLast? = some 's' := by
        rw [str_data_append]
        rw [List.getLast?_append_of_ne_nil _ (by decide : ("backups" : String).data ≠ [])]
        decide
      have hj2 : pyJoin ((⟨strip.reverse⟩ : String) ++ "/" ++ "backups") (basename p) =
          (⟨strip.reverse⟩ : String) ++ "/" ++ "backups" ++ "/" ++ basename p := by
        unfold pyJoin
        rw [if_neg hne2, if_neg (by rw [hlast2]; decide)]
      rw [hj2] at hdata
      rw [← hsplit, hdecomp] at hdata
      rw [str_data_append, str_data_append, str_data_append, str_data_append] at hdata
      have hsd : (⟨strip.reverse⟩ : String).data = strip.reverse := rfl
      rw [hsd] at hdata
      rw [List.append_assoc, List.append_assoc, List.append_assoc,
        List.append_assoc] at hdata
      have hcancel := List.append_cancel_left hdata
      -- hcancel : "/".data ++ ("backups".data ++ ("/".data ++ B)) = slh.reverse ++ B
      have hform : ("/" : String).data ++ (("backups" : String).data ++ (("/" : String).data ++ (basename p).data)) =
          ("/backups/" : String).data ++ (basename p).data := by
        simp [str_data_append]
      rw [hform] at hcancel
      have hSeq : ("/backups/" : String).data = slh.reverse := List.append_cancel_right hcancel
      have hb : 'b' ∈ slh := by
        rw [← List.mem_reverse, ← hSeq]
        decide
      have := List.mem_takeWhile_imp (hslh ▸ hb)
      simp at this

/-! ### Glyph collection, the FontForge script builder, and `generate_font` -/

/-- Does a directory entry match the glob pattern `*.svg`?  (`glob` matches
the literal tail `.svg` and, shell-like, never matches names that start with
a dot.) -/
def matchSvg (entry : String) : Bool :=
  endWith ".svg".data entry.data && !(begWith ".".data entry.data)

/-- `glob.glob(os.path.join(folder, "*.svg"))`: matching entries of the
directory listing, joined onto the folder.  The listing order is
OS-determined, so the model takes it as a parameter. -/
def globSvg (folder : String) (entries : List String) : List String :=
  (entries.filter matchSvg).map (fun entry => pyJoin folder entry)

/-- `sorted(glob.glob(os.path.join(self.svg_folder, "*.svg")))` — the glyph
file list `generate_font` passes to the FontForge subprocess. -/
def sortedSvgFiles (folder : String) (entries : List String) : List String :=
  (globSvg folder entries).insertionSort strLeR

/-- `output_file.replace('\\\\', '/')` in the source: each non-overlapping
occurrence of two backslashes becomes one forward slash. -/
def replaceDbb : List Char → List Char
  | '\\' :: '\\' :: rest => '/' :: replaceDbb rest
  | c :: rest => c :: replaceDbb rest
  | [] => []

def normOutputPath (s : String) : String := ⟨replaceDbb s.data⟩

/-- Everything `generate_fontforge_script` emits before the output path. -/
def scriptPre (font_name : String) : String :=
  "\n        # Crear una nueva fuente\n        New()\n\n        # Configurar metadatos de la fuente\n        SetFontNames(\"" ++
  font_name ++ "\", \"" ++ font_name ++ "\", \"" ++ font_name ++
  "\", \"Regular\")\n        SetTTFName(0x409, 1, \"" ++ font_name ++
  "\")\n        SetTTFName(0x409, 2, \"Regular\")\n        SetTTFName(0x409, 3, \"" ++
  font_name ++ "\")\n        SetTTFName(0x409, 4, \"" ++ font_name ++
  "\")\n        SetTTFName(0x409, 5, \"Version 1.0\")\n\n        # Configurar unidades\n        ScaleToEm(1000)\n\n        # Iterar sobre los archivos pasados como argumentos\n        foreach($argv)\n            Open($1)\n            SelectAll()\n            Copy()\n            Close()\n\n            # Obtener el nombre base del archivo (sin extensión)\n            filename = FileName($1)\n            base = FileBaseName(filename)\n\n            # Obtener código Unicode del primer carácter del nombre\n            Select(CharToUnicode(substr(base, 0, 1)))\n            Paste()\n            SetWidth(600)\n            SelectNone()\n        endloop\n\n        # Guardar la fuente\n        Generate(\""

/-- Everything `generate_fontforge_script` emits after the output path. -/
def scriptSuf : String := "\")\n        Close()\n        Quit(0)\n        "

/-- The f-string of `generate_fontforge_script`, verbatim, parameterized on
the module constant `FONT_NAME` threaded as `font_name`. -/
def generate_fontforge_script (font_name : String) (output_file : String) : String :=
  scriptPre font_name ++ normOutputPath output_file ++ scriptSuf

/-- FontSpec of the spec's data model.  The source keeps the name and em size
as module constants (`FONT_NAME`, 1000); the glyphs are the sorted SVG paths;
only the name and output path flow into the script text. -/
structure FontSpec where
  font_name : String
  em_size : Nat
  output_path : String
  glyphs : List String

/-- `build(FontSpec) -> CompilerScript`. -/
def build (s : FontSpec) : String :=
  generate_fontforge_script s.font_name s.output_path

/-- The argument vector `generate_font` hands to `subprocess.run`:
`[self.fontforge_path, "-script", script_path] + svg_files`. -/
def fontforge_argv (fontforge_path script_path folder : String)
    (entries : List String) : List String :=
  [fontforge_path, "-script", script_path] ++ sortedSvgFiles folder entries

/-- Substring containment on strings (for script-content assertions). -/
def strHasSub (s pat : String) : Bool := hasSub pat.data s.data

/-- Occurrence count on strings (for script-content assertions). -/
def strCountSub (s pat : String) : Nat := countSub pat.data s.data

/-- Erase every space character (to compare directive text modulo spacing). -/
def stripSpaces (s : String) : String := ⟨s.data.filter (fun c => c != ' ')⟩

/-! ### The `select_svg_folder` / `generate_font` session flow -/

structure GenState where
  svg_folder : String
  generate_enabled : Bool

def initState : GenState := { svg_folder := "", generate_enabled := false }

/-- `select_svg_folder`: `folder = ""` models a cancelled dialog; a folder
with matching SVG files is recorded and generation enabled (iff FontForge was
found); a folder with zero matches is reported and rejected — `svg_folder`
is left untouched and the generate action disabled. -/
def select_svg_folder (st : GenState) (listing : String → List String)
    (have_fontforge : Bool) (folder : String) : GenState :=
  if folder = "" then st
  else if globSvg folder (listing folder) ≠ [] then
    { svg_folder := folder, generate_enabled := have_fontforge }
  else
    { st with generate_enabled := false }

/-- `generate_font`: the glyph-file list passed to the compiler subprocess,
or `none` when the action aborts before any invocation (no folder chosen, or
the save dialog cancelled). -/
def generate_font (st : GenState) (listing : String → List String)
    (output_file : String) : Option (List String) :=
  if st.svg_folder = "" then none
  else if output_file = "" then none
  else some (sortedSvgFiles st.svg_folder (listing st.svg_folder))

/-- Session states reachable through folder selections (the only operation
that mutates `svg_folder`); the directory contents are fixed for the session
(single-threaded flow, no concurrent modification). -/
inductive Reachable (listing : String → List String) (have_fontforge : Bool) :
    GenState → Prop
  | init : Reachable listing have_fontforge initState
  | select (st : GenState) (folder : String) :
      Reachable listing have_fontforge st →
      Reachable listing have_fontforge (select_svg_folder st listing have_fontforge folder)

theorem reachable_folder_nonempty (listing : String → List String)
    (have_fontforge : Bool) (st : GenState)
    (h : Reachable listing have_fontforge st) :
    st.svg_folder = "" ∨ globSvg st.svg_folder (listing st.svg_folder) ≠ [] := by
  induction h with
  | init => left; rfl
  | select st2 folder hr ih =>
    unfold select_svg_folder
    by_cases hf : folder = ""
    · simpa [hf] using ih
    · by_cases hg : globSvg folder (listing folder) ≠ []
      · rw [if_neg hf, if_pos hg]
        right
        exact hg
      · simpa [hf, hg] using ih

/-! ### Behaviour of the style injection -/

theorem namesL_append (a b : List Node) : namesL (a ++ b) = namesL a ++ namesL b := by
  induction a with
  | nil => simp [namesL]
  | cons t ts ih => simp [namesL, ih]

theorem WfL_append_elem (cs : List Node) (e : Node) (hw : WfL cs) (he : WfN e)
    (hne : isTextN e = false) : WfL (cs ++ [e]) := by
  induction cs with
  | nil =>
    refine ⟨he, ?_, trivial⟩
    intro hcon
    rfl
  | cons t rest ih =>
    obtain ⟨hw1, hw2, hw3⟩ := hw
    refine ⟨hw1, ?_, ih hw3⟩
    intro ht
    cases rest with
    | nil =>
      show headIsText (e :: []) = false
      rw [headIsText_cons]
      exact hne
    | cons t2 rest2 =>
      show headIsText (t2 :: (rest2 ++ [e])) = false
      rw [headIsText_cons]
      have := hw2 ht
      rw [headIsText_cons] at this
      exact this

theorem styleNode_wf (css : String) (h1 : css.data ≠ []) (h2 : '<' ∉ css.data) :
    WfN (styleNode css) ∧ isTextN (styleNode css) = false := by
  refine ⟨⟨by decide, by decide, by decide, ⟨⟨h1, h2⟩, ?_, trivial⟩⟩, rfl⟩
  intro hcon
  rfl

theorem headNode_wf (style : Node) (hs : WfN style) (hst : isTextN style = false) :
    WfN (Node.elem "head" [style]) ∧ isTextN (Node.elem "head" [style]) = false := by
  refine ⟨⟨by decide, by decide, by decide, ⟨hs, ?_, trivial⟩⟩, rfl⟩
  intro hcon
  rw [hst] at hcon
  exact Bool.noConfusion hcon

theorem augmentTree_of_head (style : Node) (ts cs0 : List Node)
    (h : childrenFirstL "head" ts = some cs0) :
    ∃ ts2, augmentTree style ts = some ts2 ∧
      childrenFirstL "head" ts2 = some (cs0 ++ [style]) := by
  rcases hr : replaceFirstL "head" (fun cs => cs ++ [style]) ts with _ | ts2
  · rw [replaceFirstL_none] at hr
    rw [hr] at h
    exact Option.noConfusion h
  · obtain ⟨cs1, h1, h2⟩ := replaceFirstL_children "head" _ ts ts2 hr
    rw [h] at h1
    injection h1 with h1
    refine ⟨ts2, by simp [augmentTree, hr], ?_⟩
    rw [h2, h1]

theorem augmentTree_of_html (style : Node) (ts hs : List Node)
    (hno : childrenFirstL "head" ts = none)
    (hh : childrenFirstL "html" ts = some hs) :
    ∃ ts2, augmentTree style ts = some ts2 ∧
      childrenFirstL "html" ts2 = some (Node.elem "head" [style] :: hs) := by
  have hrn : replaceFirstL "head" (fun cs => cs ++ [style]) ts = none :=
    (replaceFirstL_none _ _ _).mpr hno
  rcases hr : replaceFirstL "html" (fun cs => Node.elem "head" [style] :: cs) ts with _ | ts2
  · rw [replaceFirstL_none] at hr
    rw [hr] at hh
    exact Option.noConfusion hh
  · obtain ⟨cs1, h1, h2⟩ := replaceFirstL_children "html" _ ts ts2 hr
    rw [hh] at h1
    injection h1 with h1
    refine ⟨ts2, by simp [augmentTree, hrn, hr], ?_⟩
    rw [h2, h1]

theorem augmentTree_none_iff (style : Node) (ts : List Node) :
    augmentTree style ts = none ↔
      childrenFirstL "head" ts = none ∧ childrenFirstL "html" ts = none := by
  unfold augmentTree
  rcases hr : replaceFirstL "head" (fun cs => cs ++ [style]) ts with _ | ts2
  · show replaceFirstL "html" (fun cs => Node.elem "head" [style] :: cs) ts = none ↔ _
    constructor
    · intro h
      exact ⟨(replaceFirstL_none _ _ _).mp hr, (replaceFirstL_none _ _ _).mp h⟩
    · intro h
      exact (replaceFirstL_none _ _ _).mpr h.2
  · show some ts2 = none ↔ _
    constructor
    · intro h
      exact Option.noConfusion h
    · intro h
      rw [(replaceFirstL_none _ _ _).mpr h.1] at hr
      exact Option.noConfusion hr

theorem augmentTree_names (style : Node) (ts ts2 : List Node)
    (h : augmentTree style ts = some ts2) :
    (∀ n ∈ namesL ts, n ∈ namesL ts2) ∧
    (∀ n ∈ namesN style, n ∈ namesL ts2) ∧
    (childrenFirstL "head" ts = none → "head" ∈ namesL ts2) := by
  unfold augmentTree at h
  rcases hr : replaceFirstL "head" (fun cs => cs ++ [style]) ts with _ | ts3
  · rw [hr] at h
    simp only at h
    obtain ⟨cs0, h1, h2⟩ := replaceFirstL_children "html" _ ts ts2 h
    obtain ⟨hn1, hn2⟩ := childrenFirstL_names "html" ts2 _ h2
    refine ⟨?_, ?_, ?_⟩
    · exact replaceFirstL_names_sub "html" _ ts ts2
        (fun cs n hn => by simp [namesL, namesN, hn]) h
    · intro n hn
      apply hn2
      simp only [namesL, namesN, List.mem_append, List.mem_cons]
      left
      right
      simp [hn]
    · intro _
      apply hn2
      simp [namesL, namesN]
  · rw [hr] at h
    simp only [Option.some.injEq] at h
    subst h
    obtain ⟨cs0, h1, h2⟩ := replaceFirstL_children "head" _ ts ts3 hr
    obtain ⟨hn1, hn2⟩ := childrenFirstL_names "head" ts3 _ h2
    refine ⟨?_, ?_, ?_⟩
    · exact replaceFirstL_names_sub "head" _ ts ts3
        (fun cs n hn => by rw [namesL_append]; simp [hn]) hr
    · intro n hn
      apply hn2
      rw [namesL_append]
      simp [namesL, hn]
    · intro hcon
      rw [(replaceFirstL_none _ _ _).mpr hcon] at hr
      exact Option.noConfusion hr

theorem augmentTree_wf (css : String) (ts ts2 : List Node)
    (h1 : css.data ≠ []) (h2 : '<' ∉ css.data)
    (h : augmentTree (styleNode css) ts = some ts2) (hw : WfL ts) : WfL ts2 := by
  obtain ⟨hsw, hst⟩ := styleNode_wf css h1 h2
  unfold augmentTree at h
  rcases hr : replaceFirstL "head" (fun cs => cs ++ [styleNode css]) ts with _ | ts3
  · rw [hr] at h
    simp only at h
    exact (replaceFirstL_wf "html" (fun cs => Node.elem "head" [styleNode css] :: cs) ts ts2
      (fun cs hcs =>
        show WfN (Node.elem "head" [styleNode css]) ∧ _ ∧ WfL cs from
          ⟨(headNode_wf _ hsw hst).1, fun hcon => Bool.noConfusion hcon, hcs⟩) h hw).1
  · rw [hr] at h
    simp only [Option.some.injEq] at h
    subst h
    exact (replaceFirstL_wf "head" _ ts ts3
      (fun cs hcs => WfL_append_elem cs _ hcs hsw hst) hr hw).1

/-! ### Claims -/

theorem begWith_append (p a b : List Char) (h : begWith p a = true) :
    begWith p (a ++ b) = true := by
  induction p generalizing a with
  | nil => rfl
  | cons x xs ih =>
    cases a with
    | nil => simp [begWith] at h
    | cons c cs =>
      simp only [begWith, List.cons_append, Bool.and_eq_true] at h ⊢
      exact ⟨h.1, ih cs h.2⟩

theorem endWith_append_left (pat l x : List Char) (h : endWith pat l = true) :
    endWith pat (x ++ l) = true := by
  unfold endWith at h ⊢
  rw [List.reverse_append]
  exact begWith_append _ _ _ h

theorem pyJoin_suffix (a b : String) : ∃ x, (pyJoin a b).data = x ++ b.data := by
  unfold pyJoin
  by_cases h1 : a = ""
  · rw [if_pos h1]
    exact ⟨[], rfl⟩
  · rw [if_neg h1]
    by_cases h2 : a.data.getLast? = some '/'
    · rw [if_pos h2]
      exact ⟨a.data, rfl⟩
    · rw [if_neg h2]
      refine ⟨a.data ++ ['/'], ?_⟩
      simp [str_data_append, List.append_assoc]

/-- Claim C4: for every directory listing, the glyph-file list that
`generate_font` passes to the compiler (`sorted(glob.glob(join(folder,
"*.svg")))`) is sorted ascending in Python's lexicographic string order, and
every element of it is a file matching the `.svg` glob, joined onto the
chosen folder (in particular every element ends in `.svg`). -/
theorem C4_collector_sorted_svg_only (folder : String) (entries : List String) :
    List.Sorted strLeR (sortedSvgFiles folder entries) ∧
    ∀ fp ∈ sortedSvgFiles folder entries, ∃ entry ∈ entries,
      fp = pyJoin folder entry ∧ endWith ".svg".data entry.data = true ∧
      endWith ".svg".data fp.data = true := by
  constructor
  · exact List.sorted_insertionSort strLeR _
  · intro fp hfp
    have hmem : fp ∈ globSvg folder entries :=
      (List.perm_insertionSort strLeR _).mem_iff.mp hfp
    unfold globSvg at hmem
    rcases List.mem_map.mp hmem with ⟨entry, hentry, rfl⟩
    rcases List.mem_filter.mp hentry with ⟨hin, hmatch⟩
    unfold matchSvg at hmatch
    rw [Bool.and_eq_true] at hmatch
    refine ⟨entry, hin, rfl, hmatch.1, ?_⟩
    obtain ⟨x, hx⟩ := pyJoin_suffix folder entry
    rw [hx]
    exact endWith_append_left _ _ _ hmatch.1

/-- Claim C4 witness: a concrete directory listing. -/
theorem C4_collector_sorted_svg_only_witness :
    List.Sorted strLeR (sortedSvgFiles "/glyphs" ["b.svg", "a.svg", "notes.txt"]) ∧
    (∃ entry ∈ ["b.svg", "a.svg", "notes.txt"],
      "/glyphs/a.svg" = pyJoin "/glyphs" entry ∧
      endWith ".svg".data entry.data = true ∧
      endWith ".svg".data ("/glyphs/a.svg" : String).data = true) :=
  ⟨(C4_collector_sorted_svg_only "/glyphs" ["b.svg", "a.svg", "notes.txt"]).1,
   (C4_collector_sorted_svg_only "/glyphs" ["b.svg", "a.svg", "notes.txt"]).2
     "/glyphs/a.svg" (by decide)⟩

theorem getFile_addDir (fs : AppFS) (d p : String) :
    getFile (addDir fs d) p = getFile fs p := rfl

theorem getFile_setFile_ne (fs : AppFS) (p c : String) (q : String) (h : q ≠ p) :
    getFile (setFile fs p c) q = getFile fs q := by
  unfold getFile setFile
  simp only [List.lookup]
  rw [show (q == p) = false from beq_eq_false_iff_ne.mpr h]

theorem getFile_setFile_eq (fs : AppFS) (p c : String) :
    getFile (setFile fs p c) p = some c := by
  unfold getFile setFile
  simp only [List.lookup, beq_self_eq_true]

/-- Claim C1: in every `modify_html` call, any abort — validation, read or
parse failure, soup mutation failure, backup-directory creation failure,
backup-copy failure, or failure of the final write (writes are atomic in the
model) — leaves the original document byte-identical to its pre-call state;
the backup under `backups/` holds the pre-call bytes already in the state
where only the final write remains (and still on success, showing the backup
is written before the original is overwritten); and on success the original
path holds the serialization of the augmented tree. -/
theorem C1_backup_then_overwrite (fs : AppFS) (html_file : String)
    (selected_tags : List String) (mk cp wr : Bool) :
    ((modify_html fs html_file selected_tags mk cp wr).1 ≠ MResult.ok →
      getFile (modify_html fs html_file selected_tags mk cp wr).2 html_file =
        getFile fs html_file) ∧
    ((modify_html fs html_file selected_tags mk cp wr).1 = MResult.writeFailed ∨
      (modify_html fs html_file selected_tags mk cp wr).1 = MResult.ok →
      getFile (modify_html fs html_file selected_tags mk cp wr).2
        (backupPath html_file) = getFile fs html_file) ∧
    ((modify_html fs html_file selected_tags mk cp wr).1 = MResult.ok →
      ∃ content ts ts2,
        getFile fs html_file = some content ∧ parse content = some ts ∧
        augmentTree (styleNode (buildCss FONT_NAME selected_tags)) ts = some ts2 ∧
        getFile (modify_html fs html_file selected_tags mk cp wr).2 html_file =
          some (renderDoc ts2)) := by
  unfold modify_html
  by_cases h1 : html_file = ""
  · rw [if_pos h1]
    exact ⟨fun _ => rfl,
      fun h => h.elim (fun h => MResult.noConfusion h) (fun h => MResult.noConfusion h),
      fun h => MResult.noConfusion h⟩
  · rw [if_neg h1]
    by_cases h2 : selected_tags = []
    · rw [if_pos h2]
      exact ⟨fun _ => rfl,
        fun h => h.elim (fun h => MResult.noConfusion h) (fun h => MResult.noConfusion h),
        fun h => MResult.noConfusion h⟩
    · rw [if_neg h2]
      rcases hgf : getFile fs html_file with _ | content
      · exact ⟨fun _ => hgf,
          fun h => h.elim (fun h => MResult.noConfusion h) (fun h => MResult.noConfusion h),
          fun h => MResult.noConfusion h⟩
      · dsimp only
        rcases hpar : parse content with _ | ts
        · exact ⟨fun _ => hgf,
            fun h => h.elim (fun h => MResult.noConfusion h) (fun h => MResult.noConfusion h),
            fun h => MResult.noConfusion h⟩
        · dsimp only
          rcases haug : augmentTree (styleNode (buildCss FONT_NAME selected_tags)) ts
            with _ | ts2
          · exact ⟨fun _ => hgf,
              fun h => h.elim (fun h => MResult.noConfusion h) (fun h => MResult.noConfusion h),
              fun h => MResult.noConfusion h⟩
          · dsimp only
            cases mk with
            | false =>
              exact ⟨fun _ => hgf,
                fun h => h.elim (fun h => MResult.noConfusion h) (fun h => MResult.noConfusion h),
                fun h => MResult.noConfusion h⟩
            | true =>
              cases cp with
              | false =>
                exact ⟨fun _ => hgf,
                  fun h => h.elim (fun h => MResult.noConfusion h) (fun h => MResult.noConfusion h),
                  fun h => MResult.noConfusion h⟩
              | true =>
                cases wr with
                | false =>
                  exact ⟨fun _ =>
                      (getFile_setFile_ne _ _ _ _ (Ne.symm (backupPath_ne html_file))).trans hgf,
                    fun _ => getFile_setFile_eq _ _ _,
                    fun h => MResult.noConfusion h⟩
                | true =>
                  exact ⟨fun h => absurd rfl h,
                    fun _ =>
                      (getFile_setFile_ne _ _ _ _ (backupPath_ne html_file)).trans
                        (getFile_setFile_eq _ _ _),
                    fun _ => ⟨content, ts, ts2, rfl, hpar, haug, getFile_setFile_eq _ _ _⟩⟩

/-- Claim C1 witness: a concrete document and a failing final write; the
original bytes survive and the backup holds the pre-call bytes. -/
theorem C1_backup_then_overwrite_witness :
    (getFile (modify_html ⟨[("/docs/page.html",
        "<html><head></head><body><p>hi</p></body></html>")], []⟩
      "/docs/page.html" ["p"] true true false).2 "/docs/page.html" =
      getFile ⟨[("/docs/page.html",
        "<html><head></head><body><p>hi</p></body></html>")], []⟩ "/docs/page.html") ∧
    (getFile (modify_html ⟨[("/docs/page.html",
        "<html><head></head><body><p>hi</p></body></html>")], []⟩
      "/docs/page.html" ["p"] true true false).2 (backupPath "/docs/page.html") =
      getFile ⟨[("/docs/page.html",
        "<html><head></head><body><p>hi</p></body></html>")], []⟩ "/docs/page.html") :=
  ⟨(C1_backup_then_overwrite ⟨[("/docs/page.html",
        "<html><head></head><body><p>hi</p></body></html>")], []⟩
      "/docs/page.html" ["p"] true true false).1 (by decide),
   (C1_backup_then_overwrite ⟨[("/docs/page.html",
        "<html><head></head><body><p>hi</p></body></html>")], []⟩
      "/docs/page.html" ["p"] true true false).2.1 (Or.inl (by decide))⟩

/-- Claim C6: invoking the augmentation with an empty tag selection is
rejected by input validation before any mutation: the filesystem (document
and backups alike) is returned unchanged and the result is one of the two
validation errors. -/
theorem C6_empty_selection_rejected (fs : AppFS) (html_file : String)
    (mk cp wr : Bool) :
    (modify_html fs html_file [] mk cp wr).2 = fs ∧
    ((modify_html fs html_file [] mk cp wr).1 = MResult.noTags ∨
     (modify_html fs html_file [] mk cp wr).1 = MResult.noFile) := by
  unfold modify_html
  by_cases h1 : html_file = ""
  · rw [if_pos h1]
    exact ⟨rfl, Or.inr rfl⟩
  · rw [if_neg h1, if_pos rfl]
    exact ⟨rfl, Or.inl rfl⟩

/-- Claim C10: a document whose tree has neither a `head` nor an `html`
element makes augmentation abort with the reported soup-mutation error
(`AttributeError` caught by the `except`), before the backups directory is
created or any file is written: the filesystem is returned untouched. -/
theorem C10_no_head_no_html (fs : AppFS) (html_file : String)
    (selected_tags : List String) (mk cp wr : Bool)
    (content : String) (ts : List Node)
    (hne : html_file ≠ "") (hsel : selected_tags ≠ [])
    (hfile : getFile fs html_file = some content)
    (hparse : parse content = some ts)
    (hhead : childrenFirstL "head" ts = none)
    (hhtml : childrenFirstL "html" ts = none) :
    (modify_html fs html_file selected_tags mk cp wr).1 = MResult.augmentError ∧
    (modify_html fs html_file selected_tags mk cp wr).2 = fs := by
  have haug := (augmentTree_none_iff (styleNode (buildCss FONT_NAME selected_tags)) ts).mpr
    ⟨hhead, hhtml⟩
  unfold modify_html
  rw [if_neg hne, if_neg hsel, hfile]
  dsimp only
  rw [hparse]
  dsimp only
  rw [haug]
  exact ⟨rfl, rfl⟩

/-- Claim C10 witness: a bare text file (`hello`) parses to a tree with no
`head` and no `html`; augmentation reports and leaves the filesystem
untouched. -/
theorem C10_no_head_no_html_witness :
    (modify_html ⟨[("/docs/note.html", "hello")], []⟩
      "/docs/note.html" ["p"] true true true).1 = MResult.augmentError ∧
    (modify_html ⟨[("/docs/note.html", "hello")], []⟩
      "/docs/note.html" ["p"] true true true).2 = ⟨[("/docs/note.html", "hello")], []⟩ :=
  C10_no_head_no_html ⟨[("/docs/note.html", "hello")], []⟩ "/docs/note.html" ["p"]
    true true true "hello" [Node.text "hello"]
    (by decide) (by decide) (by decide) (by rfl) (by rfl) (by rfl)

theorem parse_wfL (content : String) (ts : List Node) (h : parse content = some ts) :
    WfL ts := by
  unfold parse at h
  rcases hp : parseNodes (content.data.length + 1) content.data with _ | ⟨⟨ts2, rest⟩⟩
  · rw [hp] at h
    exact Option.noConfusion h
  · rw [hp] at h
    cases rest with
    | nil =>
      have : ts2 = ts := by
        injection h
      rw [← this]
      exact (parserOutputWf _).2 _ _ _ hp
    | cons c cs => exact Option.noConfusion h

/-- Claim C5: for every document text that parses, `load_html_tags` returns
the distinct element names found anywhere in the tree — each name a fixed
point of ASCII lowercasing (case-normalized by the parser), empty names
excluded — sorted ascending; and on the scenario document
`<html><body><div><p></p></div></body></html>` it yields exactly
`[body, div, html, p]`. -/
theorem C5_tag_extraction (content : String) (ts : List Node)
    (h : parse content = some ts) :
    ∃ R, load_html_tags content = some R ∧
      List.Sorted strLeR R ∧ R.Nodup ∧
      (∀ n, n ∈ R ↔ n ∈ namesL ts ∧ n ≠ "") ∧
      (∀ n ∈ R, lowerStr n = n) ∧
      load_html_tags "<html><body><div><p></p></div></body></html>" =
        some ["body", "div", "html", "p"] := by
  refine ⟨((namesL ts).dedup.insertionSort strLeR).filter (fun n => n.length != 0),
    ?_, tags_sorted _, tags_nodup _, mem_sortedTags ts, ?_, by decide⟩
  · unfold load_html_tags
    rw [h]
    rfl
  · intro n hn
    have hmem := (mem_sortedTags ts n).mp hn
    exact lowerStr_fix n (namesL_lower ts (parse_wfL content ts h) n hmem.1)

/-- Claim C5 witness: the scenario document. -/
theorem C5_tag_extraction_witness :
    ∃ R, load_html_tags "<html><body><div><p></p></div></body></html>" = some R ∧
      List.Sorted strLeR R ∧ R.Nodup ∧
      (∀ n, n ∈ R ↔
        n ∈ namesL [Node.elem "html" [Node.elem "body" [Node.elem "div" [Node.elem "p" []]]]] ∧
        n ≠ "") ∧
      (∀ n ∈ R, lowerStr n = n) ∧
      load_html_tags "<html><body><div><p></p></div></body></html>" =
        some ["body", "div", "html", "p"] :=
  C5_tag_extraction "<html><body><div><p></p></div></body></html>"
    [Node.elem "html" [Node.elem "body" [Node.elem "div" [Node.elem "p" []]]]] (by rfl)

/-- Claim C7: on every successful augmentation, if the parsed document has a
head section the style block is appended as the last child of the first such
section; if it has none but has an html element, a head containing exactly
the style block is synthesized and inserted as the first child of that html
element. -/
theorem C7_style_block_placement (style : Node) (ts : List Node) :
    (∀ cs0, childrenFirstL "head" ts = some cs0 →
      ∃ ts2, augmentTree style ts = some ts2 ∧
        childrenFirstL "head" ts2 = some (cs0 ++ [style])) ∧
    (childrenFirstL "head" ts = none →
      ∀ hs, childrenFirstL "html" ts = some hs →
        ∃ ts2, augmentTree style ts = some ts2 ∧
          childrenFirstL "html" ts2 = some (Node.elem "head" [style] :: hs)) := by
  constructor
  · intro cs0 h
    exact augmentTree_of_head style ts cs0 h
  · intro hno hs hh
    exact augmentTree_of_html style ts hs hno hh

/-- Claim C7 witness: one document with a head, one without. -/
theorem C7_style_block_placement_witness :
    (∃ ts2, augmentTree (styleNode "x")
        [Node.elem "html" [Node.elem "head" [Node.text "t"], Node.elem "body" []]] =
        some ts2 ∧
      childrenFirstL "head" ts2 = some ([Node.text "t"] ++ [styleNode "x"])) ∧
    (∃ ts2, augmentTree (styleNode "x") [Node.elem "html" [Node.elem "body" []]] =
        some ts2 ∧
      childrenFirstL "html" ts2 =
        some (Node.elem "head" [styleNode "x"] :: [Node.elem "body" []])) :=
  ⟨(C7_style_block_placement (styleNode "x")
      [Node.elem "html" [Node.elem "head" [Node.text "t"], Node.elem "body" []]]).1
      [Node.text "t"] (by rfl),
   (C7_style_block_placement (styleNode "x")
      [Node.elem "html" [Node.elem "body" []]]).2 (by rfl) [Node.elem "body" []] (by rfl)⟩

theorem buildCss_ne_nil (f : String) (tags : List String) :
    (buildCss f tags).data ≠ [] := by
  unfold buildCss
  rw [str_data_append]
  intro h
  rcases List.append_eq_nil.mp h with ⟨_, h2⟩
  exact absurd h2 (by decide)

/-- Claim C9: augmenting a parsed document with a non-empty tag selection
(whose CSS block is markup-free, as every real selection drawn from parsed
tag names is) and re-extracting the tags of the serialized result yields a
superset of the original document's tag set, containing `style`, and
containing `head` whenever the head section had to be synthesized. -/
theorem C9_augment_reextract_superset (content : String) (ts : List Node)
    (tags : List String) (ts2 : List Node)
    (hpar : parse content = some ts)
    (_htags : tags ≠ [])
    (hcss : '<' ∉ (buildCss FONT_NAME tags).data)
    (haug : augmentTree (styleNode (buildCss FONT_NAME tags)) ts = some ts2) :
    ∃ R R2, load_html_tags content = some R ∧
      load_html_tags (renderDoc ts2) = some R2 ∧
      (∀ n ∈ R, n ∈ R2) ∧ "style" ∈ R2 ∧
      (childrenFirstL "head" ts = none → "head" ∈ R2) := by
  have hwf : WfL ts := parse_wfL content ts hpar
  have hwf2 : WfL ts2 :=
    augmentTree_wf (buildCss FONT_NAME tags) ts ts2 (buildCss_ne_nil _ _) hcss haug hwf
  have hrt : parse (renderDoc ts2) = some ts2 := parse_renderDoc ts2 hwf2
  obtain ⟨hsub, hstyle, hhead⟩ := augmentTree_names (styleNode (buildCss FONT_NAME tags)) ts ts2 haug
  refine ⟨((namesL ts).dedup.insertionSort strLeR).filter (fun n => n.length != 0),
    ((namesL ts2).dedup.insertionSort strLeR).filter (fun n => n.length != 0),
    ?_, ?_, ?_, ?_, ?_⟩
  · unfold load_html_tags
    rw [hpar]
    rfl
  · unfold load_html_tags
    rw [hrt]
    rfl
  · intro n hn
    have h1 := (mem_sortedTags ts n).mp hn
    exact (mem_sortedTags ts2 n).mpr ⟨hsub n h1.1, h1.2⟩
  · refine (mem_sortedTags ts2 "style").mpr ⟨?_, by decide⟩
    apply hstyle
    simp [styleNode, namesN]
  · intro hno
    exact (mem_sortedTags ts2 "head").mpr ⟨hhead hno, by decide⟩

/-- Claim C9 witness: the scenario document with selection `div, p`. -/
theorem C9_augment_reextract_superset_witness :
    ∃ R R2,
      load_html_tags "<html><body><div><p></p></div></body></html>" = some R ∧
      load_html_tags (renderDoc
        [Node.elem "html"
          [Node.elem "head" [styleNode (buildCss FONT_NAME ["div", "p"])],
           Node.elem "body" [Node.elem "div" [Node.elem "p" []]]]]) = some R2 ∧
      (∀ n ∈ R, n ∈ R2) ∧ "style" ∈ R2 ∧
      (childrenFirstL "head"
          [Node.elem "html" [Node.elem "body" [Node.elem "div" [Node.elem "p" []]]]] = none →
        "head" ∈ R2) :=
  C9_augment_reextract_superset "<html><body><div><p></p></div></body></html>"
    [Node.elem "html" [Node.elem "body" [Node.elem "div" [Node.elem "p" []]]]]
    ["div", "p"]
    [Node.elem "html"
      [Node.elem "head" [styleNode (buildCss FONT_NAME ["div", "p"])],
       Node.elem "body" [Node.elem "div" [Node.elem "p" []]]]]
    (by rfl) (by decide) (by decide) (by rfl)

set_option maxRecDepth 40000 in
/-- Claim C2 counterexample: the script emitted for the scenario (font
`MyCustomFont`, output `out.ttf`, glyph directory with `a.svg`, `b.svg`,
`c.svg`) does not contain three glyph-import blocks — the select-all
directive, one per block under the claim, occurs exactly once, because the
builder emits a single `foreach($argv)` loop and never unrolls per glyph. -/
theorem C2_counterexample :
    ¬ (strCountSub (generate_fontforge_script "MyCustomFont" "out.ttf")
        "SelectAll()" = 3) := by
  decide

set_option maxRecDepth 100000 in
/-- Claim C2 amended: the script contains one glyph-import loop over the
compiler's positional arguments — a single occurrence of each per-glyph
directive (open, select-all, copy, close, code point from the first
character of the base name, paste, width 600, deselect) inside one
`foreach($argv)` block — together with the font-name directive (spacing as
emitted) and `Generate("out.ttf")`; the glyph files are passed to the
compiler as positional arguments in filename order. -/
theorem C2_amended_single_loop :
    strCountSub (generate_fontforge_script "MyCustomFont" "out.ttf")
      "foreach($argv)" = 1 ∧
    strCountSub (generate_fontforge_script "MyCustomFont" "out.ttf")
      "Open($1)" = 1 ∧
    strCountSub (generate_fontforge_script "MyCustomFont" "out.ttf")
      "SelectAll()" = 1 ∧
    strCountSub (generate_fontforge_script "MyCustomFont" "out.ttf")
      "Copy()" = 1 ∧
    strCountSub (generate_fontforge_script "MyCustomFont" "out.ttf")
      "Select(CharToUnicode(substr(base, 0, 1)))" = 1 ∧
    strCountSub (generate_fontforge_script "MyCustomFont" "out.ttf")
      "Paste()" = 1 ∧
    strCountSub (generate_fontforge_script "MyCustomFont" "out.ttf")
      "SetWidth(600)" = 1 ∧
    strCountSub (generate_fontforge_script "MyCustomFont" "out.ttf")
      "SelectNone()" = 1 ∧
    strHasSub (stripSpaces (generate_fontforge_script "MyCustomFont" "out.ttf"))
      "SetFontNames(\"MyCustomFont\",\"MyCustomFont\",\"MyCustomFont\",\"Regular\")" = true ∧
    strHasSub (generate_fontforge_script "MyCustomFont" "out.ttf")
      "Generate(\"out.ttf\")" = true ∧
    fontforge_argv "/usr/bin/fontforge" "/tmp/generate_font.pe" "/glyphs"
      ["b.svg", "c.svg", "a.svg"] =
      ["/usr/bin/fontforge", "-script", "/tmp/generate_font.pe",
       "/glyphs/a.svg", "/glyphs/b.svg", "/glyphs/c.svg"] := by
  refine ⟨?_, ?_, ?_, ?_, ?_, ?_, ?_, ?_, ?_, ?_, ?_⟩ <;> decide

/-- Claim C3: the script builder is a deterministic function of the font
name and the output path: two FontSpec values with the same font name
produce scripts that are byte-identical except for the normalized output
path token (shared text before and after it), and identical output paths
give byte-identical scripts. -/
theorem C3_build_deterministic (s1 s2 : FontSpec)
    (hname : s1.font_name = s2.font_name) :
    build s1 = scriptPre s1.font_name ++ normOutputPath s1.output_path ++ scriptSuf ∧
    build s2 = scriptPre s1.font_name ++ normOutputPath s2.output_path ++ scriptSuf ∧
    (s1.output_path = s2.output_path → build s1 = build s2) := by
  refine ⟨rfl, ?_, ?_⟩
  · rw [hname]
    rfl
  · intro hp
    unfold build generate_fontforge_script
    rw [hname, hp]

/-- Claim C3 witness. -/
theorem C3_build_deterministic_witness :
    build ⟨"MyCustomFont", 1000, "out.ttf", ["a.svg"]⟩ =
      scriptPre "MyCustomFont" ++ normOutputPath "out.ttf" ++ scriptSuf ∧
    build ⟨"MyCustomFont", 1000, "other.ttf", []⟩ =
      scriptPre "MyCustomFont" ++ normOutputPath "other.ttf" ++ scriptSuf :=
  ⟨(C3_build_deterministic ⟨"MyCustomFont", 1000, "out.ttf", ["a.svg"]⟩
      ⟨"MyCustomFont", 1000, "other.ttf", []⟩ rfl).1,
   (C3_build_deterministic ⟨"MyCustomFont", 1000, "out.ttf", ["a.svg"]⟩
      ⟨"MyCustomFont", 1000, "other.ttf", []⟩ rfl).2.1⟩

theorem sortedSvgFiles_ne_nil (folder : String) (entries : List String)
    (h : globSvg folder entries ≠ []) : sortedSvgFiles folder entries ≠ [] := by
  intro hcon
  apply h
  have hperm := List.perm_insertionSort strLeR (globSvg folder entries)
  rw [show List.insertionSort strLeR (globSvg folder entries) =
    sortedSvgFiles folder entries from rfl, hcon] at hperm
  exact hperm.symm.eq_nil

/-- Claim C8: along every session history, choosing a directory with zero
matching glyph files is rejected at selection time (reported, generation
disabled, the recorded folder untouched); `generate_font` aborts before
invoking the compiler when no folder is recorded; and whenever the compiler
is invoked the glyph list passed to it is non-empty. -/
theorem C8_empty_glyph_dir_rejected (listing : String → List String)
    (have_fontforge : Bool) (st : GenState)
    (hr : Reachable listing have_fontforge st) :
    (∀ output_file args, generate_font st listing output_file = some args → args ≠ []) ∧
    (∀ folder, folder ≠ "" → globSvg folder (listing folder) = [] →
      select_svg_folder st listing have_fontforge folder =
        { svg_folder := st.svg_folder, generate_enabled := false }) ∧
    (st.svg_folder = "" → ∀ output_file, generate_font st listing output_file = none) := by
  refine ⟨?_, ?_, ?_⟩
  · intro output_file args hgen
    unfold generate_font at hgen
    by_cases h1 : st.svg_folder = ""
    · rw [if_pos h1] at hgen
      exact Option.noConfusion hgen
    · rw [if_neg h1] at hgen
      by_cases h2 : output_file = ""
      · rw [if_pos h2] at hgen
        exact Option.noConfusion hgen
      · rw [if_neg h2] at hgen
        injection hgen with hgen
        rw [← hgen]
        rcases reachable_folder_nonempty listing have_fontforge st hr with h3 | h3
        · exact absurd h3 h1
        · exact sortedSvgFiles_ne_nil _ _ h3
  · intro folder hne hzero
    unfold select_svg_folder
    rw [if_neg hne, if_neg (by simp [hzero])]
  · intro h1 output_file
    unfold generate_font
    rw [if_pos h1]

/-- Claim C8 witness: a two-step session — select a folder with one glyph,
then try an empty folder — plus the initial no-folder rejection. -/
theorem C8_empty_glyph_dir_rejected_witness :
    ((["/glyphs/a.svg"] : List String) ≠ []) ∧
    (select_svg_folder
        (select_svg_folder initState
          (fun f => if f = "/glyphs" then ["a.svg"] else []) true "/glyphs")
        (fun f => if f = "/glyphs" then ["a.svg"] else []) true "/empty" =
      { svg_folder :=
          (select_svg_folder initState
            (fun f => if f = "/glyphs" then ["a.svg"] else []) true "/glyphs").svg_folder,
        generate_enabled := false }) ∧
    generate_font initState (fun f => if f = "/glyphs" then ["a.svg"] else [])
      "out.ttf" = none :=
  ⟨(C8_empty_glyph_dir_rejected (fun f => if f = "/glyphs" then ["a.svg"] else [])
      true _ (Reachable.select initState "/glyphs" Reachable.init)).1
      "out.ttf" ["/glyphs/a.svg"] (by decide),
   (C8_empty_glyph_dir_rejected (fun f => if f = "/glyphs" then ["a.svg"] else [])
      true _ (Reachable.select initState "/glyphs" Reachable.init)).2.1
      "/empty" (by decide) (by decide),
   (C8_empty_glyph_dir_rejected (fun f => if f = "/glyphs" then ["a.svg"] else [])
      true initState Reachable.init).2.2 rfl "out.ttf"⟩
